import Mathlib

/-!
Verification of the identity-reconciliation core of the
bitespeed-identity-reconciliation service.

The definitions below are a shallow embedding of src/src/service.ts
(the newer service, which the spec designates as authoritative) plus the
narrow store contract it drives through Prisma.  Machine state is a list
of contact rows together with the id counter and the transaction clock
that the store uses to assign `id` and `createdAt` on insert.  Every
Prisma query issued by `reconcile` is embedded as a pure function over
that state, and `reconcile` itself follows the TypeScript control flow
statement by statement.
-/

namespace Bitespeed

/-- Link precedence of a contact row, `linkPrecedence` in the schema. -/
inductive Precedence where
  | primary
  | secondary
deriving DecidableEq, Repr

/-- One row of the `Contact` table.  `email` and `phoneNumber` are nullable
text columns (`Option String`), `linkedId` a nullable self-reference,
`createdAt` and `deletedAt` timestamps modelled as naturals. -/
structure Contact where
  id : Nat
  email : Option String
  phoneNumber : Option String
  linkedId : Option Nat
  linkPrecedence : Precedence
  createdAt : Nat
  deletedAt : Option Nat
deriving DecidableEq, Repr

/-- The transactional store: the table rows in insertion order, the next
auto-increment id, and the clock value the store stamps as `createdAt`
on rows inserted by the current transaction. -/
structure Store where
  rows : List Contact
  nextId : Nat
  now : Nat
deriving DecidableEq, Repr

/-- JavaScript truthiness of a nullable string: `null` and the empty
string are falsy.  Used wherever the TypeScript source tests a field
with `if (x)` or `filter(Boolean)`. -/
def truthy : Option String → Bool
  | none => false
  | some s => s != ""

/-- A row is live when `deletedAt` is null: every query in service.ts
filters on `deletedAt: null`. -/
def isLive (c : Contact) : Bool :=
  c.deletedAt == none

/-- The lexicographic (createdAt, id) order used to model result ordering
of the store queries.  service.ts orders by `createdAt asc`; the order of
rows with equal `createdAt` is modelled from the spec (section 6.1): ties
are returned in ascending `id`. -/
def contactLe (a b : Contact) : Bool :=
  a.createdAt < b.createdAt || (a.createdAt == b.createdAt && a.id ≤ b.id)

/-- Insert `c` into a list sorted by `contactLe`, before the first element
it does not come strictly after. -/
def insertSorted (c : Contact) : List Contact → List Contact
  | [] => [c]
  | d :: ds => if contactLe c d then c :: d :: ds else d :: insertSorted c ds

/-- Modelled from the spec: the result ordering of the store's queries.
Postgres result order is not part of src; section 6.1 of the spec fixes
`createdAt ASC` with ties in ascending `id`, which this insertion sort
realises. -/
def sortContacts : List Contact → List Contact
  | [] => []
  | c :: cs => insertSorted c (sortContacts cs)

/-- The disjunctive match condition of step 1 of `reconcile`:
`email` equality when the input email is truthy, or `phoneNumber`
equality when the input phone is truthy, mirroring
`if (email) orConditions.push({ email })` and the phone analogue. -/
def matchesInput (e p : Option String) (c : Contact) : Bool :=
  (truthy e && c.email == e) || (truthy p && c.phoneNumber == p)

/-- The full `where` clause of the step 1 query.  When both input fields
are falsy the TypeScript passes `OR: undefined`, which matches every
live row. -/
def matchCondition (e p : Option String) (c : Contact) : Bool :=
  if truthy e || truthy p then matchesInput e p c else true

/-- Step 1 query: all live contacts matching email OR phone, ordered by
`createdAt asc`. -/
def findMatching (s : Store) (e p : Option String) : List Contact :=
  sortContacts (s.rows.filter (fun c => isLive c && matchCondition e p c))

/-- Resolve one matched contact to its root primary id:
`c.linkPrecedence === "primary" ? c.id : c.linkedId!`.  A secondary with
a null `linkedId` makes the subsequent `findMany` with `id: { in: ... }`
throw at runtime, embedded as an error value. -/
def rootIdOf (c : Contact) : Except Unit Nat :=
  if c.linkPrecedence == .primary then .ok c.id
  else
    match c.linkedId with
    | some i => .ok i
    | none => .error ()

/-- The step 3 collection loop: resolve every match to its root id,
aborting on a null `linkedId` as `rootIdOf` does. -/
def collectRootIds : List Contact → Except Unit (List Nat)
  | [] => .ok []
  | c :: cs =>
    match rootIdOf c, collectRootIds cs with
    | .ok i, .ok is => .ok (i :: is)
    | .error u, _ => .error u
    | .ok _, .error u => .error u

/-- Step 3 query: the live rows whose id is among the collected root ids,
ordered by `createdAt asc`. -/
def findPrimaries (s : Store) (ids : List Nat) : List Contact :=
  sortContacts (s.rows.filter (fun c => isLive c && ids.contains c.id))

/-- One iteration of the step 4 merge loop for loser id `l`: the
`update` demoting the row with id `l` under `root`, combined with the
`updateMany` re-linking every live row whose `linkedId` is `l`. -/
def demoteStep (root l : Nat) (c : Contact) : Contact :=
  if c.id == l then { c with linkedId := some root, linkPrecedence := .secondary }
  else if c.linkedId == some l && isLive c then { c with linkedId := some root }
  else c

/-- The step 4 merge loop: process the losers in fetched order. -/
def mergeAll (root : Nat) (losers : List Nat) (rows : List Contact) : List Contact :=
  losers.foldl (fun rs l => rs.map (demoteStep root l)) rows

/-- Step 5 re-read of the full group: the root plus all live rows linked
to it, ordered by `createdAt asc`. -/
def findGroup (s : Store) (rootId : Nat) : List Contact :=
  sortContacts (s.rows.filter (fun c =>
    isLive c && (c.id == rootId || c.linkedId == some rootId)))

/-- `email !== null && !existingEmails.has(email)` where `existingEmails`
collects the truthy emails of the group. -/
def hasNewEmail (g : List Contact) (e : Option String) : Bool :=
  match e with
  | none => false
  | some v => !(g.any fun c => truthy c.email && c.email == some v)

/-- `phoneNumber !== null && !existingPhones.has(phoneNumber)` over the
truthy phones of the group. -/
def hasNewPhone (g : List Contact) (p : Option String) : Bool :=
  match p with
  | none => false
  | some v => !(g.any fun c => truthy c.phoneNumber && c.phoneNumber == some v)

/-- The exact-duplicate guard of step 5:
`(email === null || c.email === email) && (phoneNumber === null || c.phoneNumber === phoneNumber)`
for some row of the group. -/
def exactDup (g : List Contact) (e p : Option String) : Bool :=
  g.any fun c => (e == none || c.email == e) && (p == none || c.phoneNumber == p)

/-- The attach condition of step 5: `(hasNewEmail || hasNewPhone) && !exactDuplicate`. -/
def attachCond (g : List Contact) (e p : Option String) : Bool :=
  (hasNewEmail g e || hasNewPhone g p) && !exactDup g e p

/-- `tx.contact.create`: the store assigns `id := nextId` and
`createdAt := now` and appends the row. -/
def insertRow (s : Store) (e p : Option String) (lid : Option Nat)
    (prec : Precedence) : Contact × Store :=
  let c : Contact :=
    { id := s.nextId, email := e, phoneNumber := p, linkedId := lid,
      linkPrecedence := prec, createdAt := s.now, deletedAt := none }
  (c, { rows := s.rows ++ [c], nextId := s.nextId + 1, now := s.now })

/-- The payload of the `contact` key of the identify response. -/
structure IdentifyContact where
  primaryContactId : Nat
  emails : List String
  phoneNumbers : List String
  secondaryContactIds : List Nat
deriving DecidableEq, Repr

/-- `if (x) xs.push(x)` for a nullable string. -/
def pushTruthy : Option String → List String
  | none => []
  | some v => if v == "" then [] else [v]

/-- The secondary-traversal loop of `buildResponse`: append each truthy
email and phone that is not already present. -/
def respFold (secondaries : List Contact) (es ps : List String) :
    List String × List String :=
  secondaries.foldl
    (fun acc c =>
      let es1 :=
        match c.email with
        | some v => if v != "" && !acc.1.contains v then acc.1 ++ [v] else acc.1
        | none => acc.1
      let ps1 :=
        match c.phoneNumber with
        | some v => if v != "" && !acc.2.contains v then acc.2 ++ [v] else acc.2
        | none => acc.2
      (es1, ps1))
    (es, ps)

/-- `buildResponse` from service.ts: primary first, then the secondaries
in list order, with truthy de-duplicated emails and phones. -/
def buildResponse (primary : Contact) (secondaries : List Contact) :
    IdentifyContact :=
  let acc := respFold secondaries (pushTruthy primary.email) (pushTruthy primary.phoneNumber)
  { primaryContactId := primary.id,
    emails := acc.1,
    phoneNumbers := acc.2,
    secondaryContactIds := secondaries.map (·.id) }

/-- Failure modes of one `reconcile` attempt in this embedding:
`nullLinkedId` models the Prisma runtime error raised when a matched
secondary carries a null `linkedId` (the non-null assertion in step 3
feeds `null` into `id: { in: ... }`), and `noLivePrimary` models the
TypeError raised when `primaries` is empty and `primaries[0]` is
dereferenced. -/
inductive RErr where
  | nullLinkedId
  | noLivePrimary
deriving DecidableEq, Repr

/-- The core reconciliation algorithm of service.ts, one transactional
attempt.  Returns the response payload together with the post-transaction
store. -/
def reconcile (s : Store) (e p : Option String) :
    Except RErr (IdentifyContact × Store) :=
  let ms := findMatching s e p
  if ms.isEmpty then
    let cs := insertRow s e p none .primary
    .ok (buildResponse cs.1 [], cs.2)
  else
    match collectRootIds ms with
    | .error _ => .error .nullLinkedId
    | .ok roots =>
      match findPrimaries s roots with
      | [] => .error .noLivePrimary
      | root :: losers =>
        let rows1 := mergeAll root.id (losers.map (·.id)) s.rows
        let s1 : Store := { rows := rows1, nextId := s.nextId, now := s.now }
        let g := findGroup s1 root.id
        if attachCond g e p then
          let ns := insertRow s1 e p (some root.id) .secondary
          let all := g ++ [ns.1]
          .ok (buildResponse root (all.filter (fun c => c.id != root.id)), ns.2)
        else
          .ok (buildResponse root (g.filter (fun c => c.id != root.id)), s1)

/-- A sequence of committed reconcile calls, threading the store. -/
def reconcileSeq (s : Store) : List (Option String × Option String) → Except RErr Store
  | [] => .ok s
  | i :: is =>
    match reconcile s i.1 i.2 with
    | .error err => .error err
    | .ok rs => reconcileSeq rs.2 is

/-! ## Well-formedness predicates

The spec's data-model invariants (section 3.2) together with the
structural facts the store guarantees (unique ids, ids below the
auto-increment counter, `createdAt` not in the future). -/

/-- A validated input as produced by the request schema: present fields
are non-empty strings, and at least one field is present. -/
abbrev ValidInput (e p : Option String) : Prop :=
  e ≠ some "" ∧ p ≠ some "" ∧ (e.isSome ∨ p.isSome)

/-- Validated contact content: present fields are non-empty and at least
one field is present (spec sections 3.1 and 3.2, invariant 5). -/
abbrev validFields (c : Contact) : Prop :=
  c.email ≠ some "" ∧ c.phoneNumber ≠ some "" ∧ (c.email.isSome ∨ c.phoneNumber.isSome)

/-- The shares-email-or-shares-phone relation of spec invariant 2: the two
rows carry the same present email or the same present phone. -/
def sharesB (a b : Contact) : Bool :=
  (a.email.isSome && a.email == b.email) ||
    (a.phoneNumber.isSome && a.phoneNumber == b.phoneNumber)

/-- One step of the sharing relation restricted to live rows of `rows`. -/
def LiveShares (rows : List Contact) (a b : Contact) : Prop :=
  a ∈ rows ∧ b ∈ rows ∧ isLive a = true ∧ isLive b = true ∧ sharesB a b = true

/-- Transitive closure (reflexive-transitive) of sharing over live rows:
`a` and `b` belong to the same identity class. -/
def Related (rows : List Contact) (a b : Contact) : Prop :=
  Relation.ReflTransGen (LiveShares rows) a b

/-- Spec invariant 2: within each transitive-closure class of the sharing
relation on live rows, at most one row is a primary. -/
def AtMostOnePrimary (rows : List Contact) : Prop :=
  ∀ p q, p ∈ rows → q ∈ rows → isLive p = true → isLive q = true →
    p.linkPrecedence = .primary → q.linkPrecedence = .primary →
    Related rows p q → p = q

/-- Spec invariant 1 (depth-one): no live row is a secondary and also the
link target of another live row. -/
abbrev DepthOne (rows : List Contact) : Prop :=
  ∀ c ∈ rows, isLive c = true → c.linkPrecedence = .secondary →
    ∀ d ∈ rows, isLive d = true → d.linkedId ≠ some c.id

/-- Spec invariant 3 (seniority): a secondary is no older than its primary,
ties broken by the lower id. -/
abbrev Seniority (rows : List Contact) : Prop :=
  ∀ c ∈ rows, isLive c = true → c.linkPrecedence = .secondary →
    ∀ r ∈ rows, c.linkedId = some r.id →
      r.createdAt < c.createdAt ∨ (r.createdAt = c.createdAt ∧ r.id ≤ c.id)

/-- Spec invariant 4 (content uniqueness): the triple
`(email, phoneNumber, linkedId)` is unique across live rows. -/
abbrev ContentUnique (rows : List Contact) : Prop :=
  ∀ c ∈ rows, ∀ d ∈ rows, isLive c = true → isLive d = true →
    c.email = d.email → c.phoneNumber = d.phoneNumber → c.linkedId = d.linkedId → c = d

/-- Well-formed store: the structural store facts plus the spec invariants
used by the preservation proofs. -/
structure WF (s : Store) : Prop where
  nodup : (s.rows.map (·.id)).Nodup
  idLt : ∀ c ∈ s.rows, c.id < s.nextId
  createdLe : ∀ c ∈ s.rows, c.createdAt ≤ s.now
  valid : ∀ c ∈ s.rows, validFields c
  primNone : ∀ c ∈ s.rows, isLive c = true → c.linkPrecedence = .primary → c.linkedId = none
  secLink : ∀ c ∈ s.rows, isLive c = true → c.linkPrecedence = .secondary →
    ∃ r ∈ s.rows, c.linkedId = some r.id ∧ isLive r = true ∧ r.linkPrecedence = .primary
  amop : AtMostOnePrimary s.rows

/-! ## The identify retry wrapper

`identify` in service.ts wraps one transactional `reconcile` attempt in a
try/catch: a `PrismaClientKnownRequestError` whose `code` equals
`PRISMA_UNIQUE_CONSTRAINT_CODE` triggers exactly one fresh attempt whose
outcome (success or error) is returned as is; every other error is
rethrown immediately. -/

/-- Prisma error code for a unique-constraint violation, from src errors. -/
def PRISMA_UNIQUE_CONSTRAINT_CODE : String := "P2002"

/-- Prisma error code for a serialization failure (transaction write
conflict) at serializable isolation; not referenced anywhere in src. -/
def serializationFailureCode : String := "P2034"

/-- Outcome of one transactional attempt as seen by the catch block of
`identify`: success, a `PrismaClientKnownRequestError` carrying a code,
or any other error. -/
inductive TxOutcome (α : Type) where
  | ok (a : α)
  | prismaKnownError (code : String)
  | otherError
deriving DecidableEq, Repr

/-- The retry policy of `identify`: given the outcome of the first
attempt and the outcome a second fresh attempt would produce, return
what `identify` surfaces to its caller. -/
def identifyRetry {α : Type} (first retry : TxOutcome α) : TxOutcome α :=
  match first with
  | .prismaKnownError code =>
    if code = PRISMA_UNIQUE_CONSTRAINT_CODE then retry else .prismaKnownError code
  | r => r

/-! ## C9: the exact-duplicate guard -/

/-- The single-row group used by the C9 counterexample: a stored contact
whose email is the empty string. -/
def c9Row : Contact :=
  { id := 1, email := some "", phoneNumber := some "7", linkedId := none,
    linkPrecedence := .primary, createdAt := 0, deletedAt := none }

/-! ## C7: the response builder -/

/-- The email (respectively phone) component of the response fold, as a
fold over a single list with a field selector. -/
def dedupFold (f : Contact → Option String) (secondaries : List Contact)
    (xs : List String) : List String :=
  secondaries.foldl
    (fun acc c =>
      match f c with
      | some v => if v != "" && !acc.contains v then acc ++ [v] else acc
      | none => acc)
    xs

/-- Contact fields that are present are non-empty strings, as the spec's
data model (section 3.1) requires of stored rows. -/
def noEmptyFields (c : Contact) : Prop :=
  c.email ≠ some "" ∧ c.phoneNumber ≠ some ""

/-- The concrete survivor used by the C7 witness. -/
def c7Primary : Contact :=
  { id := 1, email := some "a", phoneNumber := some "1", linkedId := none,
    linkPrecedence := .primary, createdAt := 0, deletedAt := none }

/-- The concrete secondary used by the C7 witness. -/
def c7Secondary : Contact :=
  { id := 2, email := some "b", phoneNumber := some "1", linkedId := some 1,
    linkPrecedence := .secondary, createdAt := 5, deletedAt := none }

/-- Store used by the C3 witness: two live primaries with equal
`createdAt`, listed out of id order, plus one younger row. -/
def c3Store : Store :=
  { rows :=
      [ { id := 2, email := some "b", phoneNumber := some "2", linkedId := none,
          linkPrecedence := .primary, createdAt := 7, deletedAt := none },
        { id := 1, email := some "a", phoneNumber := some "1", linkedId := none,
          linkPrecedence := .primary, createdAt := 7, deletedAt := none },
        { id := 3, email := some "c", phoneNumber := some "3", linkedId := none,
          linkPrecedence := .primary, createdAt := 9, deletedAt := none } ],
    nextId := 4, now := 9 }

/-- The survivor the C3 witness expects: the tied row with the lower id. -/
def c3Root : Contact :=
  { id := 1, email := some "a", phoneNumber := some "1", linkedId := none,
    linkPrecedence := .primary, createdAt := 7, deletedAt := none }

/-! ## C6: dangling linkedId handling -/

/-- The dangling secondary used in the C6 counterexample: its `linkedId`
refers to id 9, which no row carries. -/
def c6Dangling : Contact :=
  { id := 2, email := some "b", phoneNumber := some "2", linkedId := some 9,
    linkPrecedence := .secondary, createdAt := 10, deletedAt := none }

/-- The live primary of the C6 counterexample store. -/
def c6Primary : Contact :=
  { id := 1, email := some "a", phoneNumber := some "1", linkedId := none,
    linkPrecedence := .primary, createdAt := 0, deletedAt := none }

/-- Store for C6: a live primary and a live secondary with a dangling
link. -/
def c6Store : Store :=
  { rows := [c6Primary, c6Dangling], nextId := 3, now := 20 }

/-- The store after the C6 counterexample call: the dangling row is left
untouched and a new secondary is attached under the surviving root. -/
def c6StoreAfter : Store :=
  { rows :=
      [ c6Primary, c6Dangling,
        { id := 3, email := some "a", phoneNumber := some "2", linkedId := some 1,
          linkPrecedence := .secondary, createdAt := 20, deletedAt := none } ],
    nextId := 4, now := 20 }

/-- The single stored row of the C8 witness store. -/
def c8Row : Contact :=
  { id := 1, email := some "a", phoneNumber := some "1", linkedId := none,
    linkPrecedence := .primary, createdAt := 0, deletedAt := none }

/-- The C8 witness store. -/
def c8Store : Store := { rows := [c8Row], nextId := 2, now := 4 }

/-- The primary row of the C10 witness store. -/
def c10Row : Contact :=
  { id := 1, email := some "a", phoneNumber := some "1", linkedId := none,
    linkPrecedence := .primary, createdAt := 0, deletedAt := none }

/-- The C10 witness store. -/
def c10Store : Store := { rows := [c10Row], nextId := 2, now := 6 }

/-! ## The merge loop as a single per-row transformation -/

/-- The cumulative effect of the whole merge loop on one row. -/
def demoteAllStep (root : Nat) (losers : List Nat) (c : Contact) : Contact :=
  losers.foldl (fun c l => demoteStep root l c) c

/-! ## Store-level consequences of the invariants -/

/-- Abbreviation for the store state after the step 4 merge loop. -/
abbrev mergedStore (s : Store) (root : Contact) (rest : List Contact) : Store :=
  ⟨mergeAll root.id (rest.map (·.id)) s.rows, s.nextId, s.now⟩

/-- The primary of the C2 counterexample store. -/
def c2xRow1 : Contact :=
  { id := 1, email := some "a", phoneNumber := some "1", linkedId := none,
    linkPrecedence := .primary, createdAt := 0, deletedAt := none }

/-- The future-dated secondary of the C2 counterexample store: its
`createdAt` (100) exceeds the store clock (50). -/
def c2xRow2 : Contact :=
  { id := 2, email := some "b", phoneNumber := some "2", linkedId := some 1,
    linkPrecedence := .secondary, createdAt := 100, deletedAt := none }

/-- The C2 counterexample store. -/
def c2xStore : Store := { rows := [c2xRow1, c2xRow2], nextId := 3, now := 50 }

/-- The payload of the first C2 counterexample call. -/
def c2xResp1 : IdentifyContact :=
  { primaryContactId := 1, emails := ["a", "b", "c"],
    phoneNumbers := ["1", "2"], secondaryContactIds := [2, 3] }

/-- The payload of the replayed C2 counterexample call: the secondaries
come back in the opposite order. -/
def c2xResp2 : IdentifyContact :=
  { primaryContactId := 1, emails := ["a", "c", "b"],
    phoneNumbers := ["1", "2"], secondaryContactIds := [3, 2] }

/-- The store after the first C2 counterexample call. -/
def c2xStoreAfter : Store :=
  { rows := [c2xRow1, c2xRow2,
      { id := 3, email := some "c", phoneNumber := some "2", linkedId := some 1,
        linkPrecedence := .secondary, createdAt := 50, deletedAt := none }],
    nextId := 4, now := 50 }

/-- The single-row store the C2 witness replays against. -/
def c2wStore : Store := { rows := [], nextId := 1, now := 0 }

/-- The row created by the first C2 witness call. -/
def c2wRow : Contact :=
  { id := 1, email := some "a", phoneNumber := none, linkedId := none,
    linkPrecedence := .primary, createdAt := 0, deletedAt := none }

/-- The store with no contacts. -/
def emptyStore : Store := ⟨[], 0, 0⟩

/-- A primary whose email and phone are shared with nobody. -/
def c1xRow1 : Contact := ⟨1, some "a", some "1", none, .primary, 10, none⟩

/-- A secondary of `c1xRow1` sharing its email with `c1xRow3` only. -/
def c1xRow2 : Contact := ⟨2, some "b", some "2", some 1, .secondary, 20, none⟩

/-- A primary sharing its email with `c1xRow2` only. -/
def c1xRow3 : Contact := ⟨3, some "b", some "3", none, .primary, 30, none⟩

/-- A well-formed store on which a merge leaves a sharing class with no
primary at all. -/
def c1xStore : Store := ⟨[c1xRow1, c1xRow2, c1xRow3], 4, 30⟩

/-- `c1xRow3` after the merge demotes it under `c1xRow1`. -/
def c1xRow3d : Contact := ⟨3, some "b", some "3", some 1, .secondary, 30, none⟩

/-- The store left by `reconcile c1xStore (some "a") (some "3")`. -/
def c1xStoreA : Store := ⟨[c1xRow1, c1xRow2, c1xRow3d], 4, 30⟩

/-- The payload returned by `reconcile c1xStore (some "a") (some "3")`. -/
def c1xResp : IdentifyContact := ⟨1, ["a", "b"], ["1", "2", "3"], [2, 3]⟩

/-- The store reached from the empty store by one validated call. -/
def c1wStore : Store :=
  ⟨[⟨0, some "a", some "1", none, .primary, 0, none⟩], 1, 0⟩

/-- The store reached from the empty store by two validated calls, the
second of which attaches a secondary. -/
def c5wStore : Store :=
  ⟨[⟨0, some "x", some "1", none, .primary, 0, none⟩,
    ⟨1, some "y", some "1", some 0, .secondary, 0, none⟩], 2, 0⟩

/-! ## C4: the retry policy -/

/-- C4 counterexample: a first attempt failing with the Prisma
serialization-failure code "P2034" is surfaced unchanged even when a
retry would succeed, so serialization failures are not retried as the
claim states. -/
theorem c4_counterexample :
    identifyRetry (TxOutcome.prismaKnownError serializationFailureCode) (TxOutcome.ok (0 : Nat)) =
      TxOutcome.prismaKnownError serializationFailureCode ∧
    identifyRetry (TxOutcome.prismaKnownError serializationFailureCode) (TxOutcome.ok (0 : Nat)) ≠
      TxOutcome.ok (0 : Nat) := by
  constructor
  · rfl
  · decide

/-- C4 amended: only a known Prisma error with code "P2002"
(unique-constraint violation) triggers the single retry, whose outcome
(success or failure) is surfaced as is; a known error with any other
code — including serialization failures — and any non-Prisma error are
surfaced without retry. -/
theorem c4_theorem {α : Type} (code : String) (retry : TxOutcome α) :
    identifyRetry (TxOutcome.prismaKnownError PRISMA_UNIQUE_CONSTRAINT_CODE) retry = retry ∧
    (code ≠ PRISMA_UNIQUE_CONSTRAINT_CODE →
      identifyRetry (TxOutcome.prismaKnownError code) retry = TxOutcome.prismaKnownError code) ∧
    (∀ a : α, identifyRetry (TxOutcome.ok a) retry = TxOutcome.ok a) ∧
    identifyRetry (TxOutcome.otherError) retry = TxOutcome.otherError := by
  refine ⟨by simp [identifyRetry], fun h => ?_, fun a => rfl, rfl⟩
  simp [identifyRetry, h]

/-- C4 witness: the amended retry policy evaluated at the concrete codes
"P2002" and "P2034". -/
theorem c4_witness :
    identifyRetry (TxOutcome.prismaKnownError PRISMA_UNIQUE_CONSTRAINT_CODE) (TxOutcome.ok (5 : Nat)) =
      TxOutcome.ok (5 : Nat) ∧
    identifyRetry (TxOutcome.prismaKnownError serializationFailureCode) (TxOutcome.ok (5 : Nat)) =
      TxOutcome.prismaKnownError serializationFailureCode :=
  ⟨(c4_theorem serializationFailureCode (TxOutcome.ok (5 : Nat))).1,
   (c4_theorem serializationFailureCode (TxOutcome.ok (5 : Nat))).2.1 (by decide)⟩

/-- C9 counterexample: for the input `(email = "", phone = "7")` against a
group holding a row `(email = "", phone = "7")`, the input carries a new
email in the sense of the code (non-null and absent from the truthy email
set), yet a row of the group satisfies the exact-duplicate predicate, and
the attach condition differs from `hasNewEmail || hasNewPhone`. -/
theorem c9_counterexample :
    hasNewEmail [c9Row] (some "") = true ∧
    exactDup [c9Row] (some "") (some "7") = true ∧
    attachCond [c9Row] (some "") (some "7") ≠
      (hasNewEmail [c9Row] (some "") || hasNewPhone [c9Row] (some "7")) := by
  decide

/-- C9 amended: for inputs whose present fields are non-empty strings (as
the request validator guarantees), a new email or a new phone rules out
the exact-duplicate predicate, so the guard is redundant and the attach
condition is equivalent to `hasNewEmail || hasNewPhone`. -/
theorem c9_theorem (g : List Contact) (e p : Option String)
    (he : e ≠ some "") (hp : p ≠ some "") :
    ((hasNewEmail g e || hasNewPhone g p) = true → exactDup g e p = false) ∧
    attachCond g e p = (hasNewEmail g e || hasNewPhone g p) := by
  have hdup : (hasNewEmail g e || hasNewPhone g p) = true → exactDup g e p = false := by
    intro hnew
    by_contra hd
    have hd' : exactDup g e p = true := by
      cases hb : exactDup g e p with
      | true => rfl
      | false => exact absurd hb hd
    obtain ⟨c, hc, hcd⟩ := List.any_eq_true.mp hd'
    have hcd' := hcd
    rw [Bool.and_eq_true] at hcd'
    rcases Bool.or_eq_true _ _ |>.mp hnew with hne | hnp
    · cases e with
      | none => simp [hasNewEmail] at hne
      | some v =>
        have hv : v ≠ "" := fun h => he (by rw [h])
        have hce : c.email = some v := by
          rcases Bool.or_eq_true _ _ |>.mp hcd'.1 with h | h
          · simp at h
          · exact eq_of_beq h
        have : ∃ c ∈ g, (truthy c.email && c.email == some v) = true := by
          exact ⟨c, hc, by simp [hce, truthy, hv]⟩
        rw [hasNewEmail] at hne
        simp only [Bool.not_eq_true'] at hne
        exact absurd (List.any_eq_true.mpr this) (by simp [hne])
    · cases p with
      | none => simp [hasNewPhone] at hnp
      | some v =>
        have hv : v ≠ "" := fun h => hp (by rw [h])
        have hcp : c.phoneNumber = some v := by
          rcases Bool.or_eq_true _ _ |>.mp hcd'.2 with h | h
          · simp at h
          · exact eq_of_beq h
        have : ∃ c ∈ g, (truthy c.phoneNumber && c.phoneNumber == some v) = true := by
          exact ⟨c, hc, by simp [hcp, truthy, hv]⟩
        rw [hasNewPhone] at hnp
        simp only [Bool.not_eq_true'] at hnp
        exact absurd (List.any_eq_true.mpr this) (by simp [hnp])
  refine ⟨hdup, ?_⟩
  cases hnew : (hasNewEmail g e || hasNewPhone g p) with
  | false => simp [attachCond, hnew]
  | true => simp [attachCond, hnew, hdup hnew]

/-- C9 witness: the amended equivalence evaluated on a concrete group and
a concrete valid input carrying a new email. -/
theorem c9_witness :
    ((hasNewEmail [c9Row] (some "x") || hasNewPhone [c9Row] (some "7")) = true →
      exactDup [c9Row] (some "x") (some "7") = false) ∧
    attachCond [c9Row] (some "x") (some "7") =
      (hasNewEmail [c9Row] (some "x") || hasNewPhone [c9Row] (some "7")) :=
  c9_theorem [c9Row] (some "x") (some "7") (by decide) (by decide)

/-- One fold step for a row whose selected field is null. -/
theorem dedupFold_cons_none {f : Contact → Option String} {c : Contact}
    (cs : List Contact) (xs : List String) (hf : f c = none) :
    dedupFold f (c :: cs) xs = dedupFold f cs xs := by
  unfold dedupFold
  rw [List.foldl_cons, hf]

/-- One fold step for a row whose selected field is a string. -/
theorem dedupFold_cons_some {f : Contact → Option String} {c : Contact} {v : String}
    (cs : List Contact) (xs : List String) (hf : f c = some v) :
    dedupFold f (c :: cs) xs =
      dedupFold f cs (if v != "" && !xs.contains v then xs ++ [v] else xs) := by
  unfold dedupFold
  rw [List.foldl_cons, hf]

/-- `respFold` computes the two dedup folds componentwise. -/
theorem respFold_eq (secondaries : List Contact) (es ps : List String) :
    respFold secondaries es ps =
      (dedupFold (·.email) secondaries es, dedupFold (·.phoneNumber) secondaries ps) := by
  induction secondaries generalizing es ps with
  | nil => rfl
  | cons c cs ih =>
    rw [respFold, List.foldl_cons]
    rw [show List.foldl _ _ cs = respFold cs _ _ from rfl]
    rw [ih]
    cases he : c.email with
    | none =>
      cases hp : c.phoneNumber with
      | none =>
        rw [dedupFold_cons_none cs es he, dedupFold_cons_none cs ps hp]
      | some w =>
        rw [dedupFold_cons_none cs es he, dedupFold_cons_some cs ps hp]
    | some v =>
      cases hp : c.phoneNumber with
      | none =>
        rw [dedupFold_cons_some cs es he, dedupFold_cons_none cs ps hp]
      | some w =>
        rw [dedupFold_cons_some cs es he, dedupFold_cons_some cs ps hp]

/-- The dedup fold only appends: the accumulator is a prefix of the result. -/
theorem dedupFold_prefix (f : Contact → Option String) (secondaries : List Contact)
    (xs : List String) : ∃ t, dedupFold f secondaries xs = xs ++ t := by
  induction secondaries generalizing xs with
  | nil => exact ⟨[], by simp [dedupFold]⟩
  | cons c cs ih =>
    cases hf : f c with
    | none =>
      rw [dedupFold_cons_none cs xs hf]
      exact ih xs
    | some v =>
      rw [dedupFold_cons_some cs xs hf]
      by_cases hcond : (v != "" && !xs.contains v) = true
      · rw [if_pos hcond]
        obtain ⟨t, ht⟩ := ih (xs ++ [v])
        exact ⟨[v] ++ t, by simp [ht]⟩
      · rw [if_neg hcond]
        exact ih xs

/-- Membership in the dedup fold result: the initial values plus every
non-empty value selected from the traversed rows. -/
theorem dedupFold_mem (f : Contact → Option String) (secondaries : List Contact)
    (xs : List String) (v : String) :
    v ∈ dedupFold f secondaries xs ↔
      v ∈ xs ∨ ∃ c ∈ secondaries, f c = some v ∧ v ≠ "" := by
  induction secondaries generalizing xs with
  | nil => simp [dedupFold]
  | cons c cs ih =>
    cases hf : f c with
    | none =>
      rw [dedupFold_cons_none cs xs hf, ih]
      simp only [List.mem_cons]
      constructor
      · rintro (h | ⟨d, hd, hdv⟩)
        · exact Or.inl h
        · exact Or.inr ⟨d, Or.inr hd, hdv⟩
      · rintro (h | ⟨d, hd | hd, hdv⟩)
        · exact Or.inl h
        · rw [hd] at hdv
          rw [hf] at hdv
          exact absurd hdv.1 (by simp)
        · exact Or.inr ⟨d, hd, hdv⟩
    | some w =>
      rw [dedupFold_cons_some cs xs hf]
      by_cases hcond : (w != "" && !xs.contains w) = true
      · rw [if_pos hcond, ih]
        rw [Bool.and_eq_true, bne_iff_ne, Bool.not_eq_true'] at hcond
        simp only [List.mem_append, List.mem_singleton, List.mem_cons]
        constructor
        · rintro ((h | h | h) | ⟨d, hd, hdv⟩)
          · exact Or.inl h
          · subst h
            exact Or.inr ⟨c, Or.inl rfl, hf, hcond.1⟩
          · exact absurd h (by simp)
          · exact Or.inr ⟨d, Or.inr hd, hdv⟩
        · rintro (h | ⟨d, hd | hd, hdv⟩)
          · exact Or.inl (Or.inl h)
          · rw [hd, hf] at hdv
            exact Or.inl (Or.inr (Or.inl (Option.some_injective _ hdv.1.symm)))
          · exact Or.inr ⟨d, hd, hdv⟩
      · rw [if_neg hcond, ih]
        rw [Bool.not_eq_true, Bool.and_eq_false_iff] at hcond
        simp only [List.mem_cons]
        constructor
        · rintro (h | ⟨d, hd, hdv⟩)
          · exact Or.inl h
          · exact Or.inr ⟨d, Or.inr hd, hdv⟩
        · rintro (h | ⟨d, hd | hd, hdv⟩)
          · exact Or.inl h
          · rw [hd, hf] at hdv
            have hvw : v = w := Option.some_injective _ hdv.1.symm
            rcases hcond with hc | hc
            · rw [bne_eq_false_iff_eq] at hc
              exact absurd (hvw.trans hc) hdv.2
            · rw [Bool.not_eq_false'] at hc
              subst hvw
              exact Or.inl (by simpa using hc)
          · exact Or.inr ⟨d, hd, hdv⟩

/-- The dedup fold preserves freedom from duplicates. -/
theorem dedupFold_nodup (f : Contact → Option String) (secondaries : List Contact)
    (xs : List String) (hx : xs.Nodup) : (dedupFold f secondaries xs).Nodup := by
  induction secondaries generalizing xs with
  | nil => simpa [dedupFold]
  | cons c cs ih =>
    cases hf : f c with
    | none =>
      rw [dedupFold_cons_none cs xs hf]
      exact ih xs hx
    | some w =>
      rw [dedupFold_cons_some cs xs hf]
      by_cases hcond : (w != "" && !xs.contains w) = true
      · rw [if_pos hcond]
        refine ih (xs ++ [w]) ?_
        rw [Bool.and_eq_true, Bool.not_eq_true'] at hcond
        refine List.Nodup.append hx (List.nodup_singleton w) ?_
        intro a ha hb
        rw [List.mem_singleton] at hb
        subst hb
        exact absurd ha (by simpa using hcond.2)
      · rw [if_neg hcond]
        exact ih xs hx

/-- Membership in the primary's seed list. -/
theorem pushTruthy_mem (o : Option String) (v : String) :
    v ∈ pushTruthy o ↔ o = some v ∧ v ≠ "" := by
  cases o with
  | none => simp [pushTruthy]
  | some w =>
    by_cases hw : w = ""
    · subst hw
      simp [pushTruthy]
      intro h
      exact h.symm
    · rw [pushTruthy, if_neg (by simpa using hw)]
      constructor
      · intro hv
        rw [List.mem_singleton] at hv
        subst hv
        exact ⟨rfl, hw⟩
      · rintro ⟨hv, -⟩
        rw [List.mem_singleton]
        exact (Option.some_injective _ hv).symm

/-- The seed lists are duplicate-free. -/
theorem pushTruthy_nodup (o : Option String) : (pushTruthy o).Nodup := by
  cases o with
  | none => simp [pushTruthy]
  | some w =>
    rw [pushTruthy]
    split
    · exact List.nodup_nil
    · exact List.nodup_singleton w

/-- C7: properties of the built payload.  Emails start with the survivor's
email when present (symmetrically for phones), both arrays are
duplicate-free and contain exactly the values present on the survivor or
on some traversed secondary, and `secondaryContactIds` is the id of each
secondary in traversal order, without dedup.  The traversal is the given
list order; `reconcile` passes the group in ascending `(createdAt, id)`
order. -/
theorem c7_theorem (primary : Contact) (secondaries : List Contact)
    (hp : noEmptyFields primary) (hs : ∀ c ∈ secondaries, noEmptyFields c) :
    (∀ v, primary.email = some v →
      (buildResponse primary secondaries).emails.head? = some v) ∧
    (∀ v, primary.phoneNumber = some v →
      (buildResponse primary secondaries).phoneNumbers.head? = some v) ∧
    (buildResponse primary secondaries).emails.Nodup ∧
    (buildResponse primary secondaries).phoneNumbers.Nodup ∧
    (∀ v, v ∈ (buildResponse primary secondaries).emails ↔
      (primary.email = some v ∨ ∃ c ∈ secondaries, c.email = some v)) ∧
    (∀ v, v ∈ (buildResponse primary secondaries).phoneNumbers ↔
      (primary.phoneNumber = some v ∨ ∃ c ∈ secondaries, c.phoneNumber = some v)) ∧
    (buildResponse primary secondaries).secondaryContactIds =
      secondaries.map (·.id) := by
  have hb : buildResponse primary secondaries =
      { primaryContactId := primary.id,
        emails := dedupFold (·.email) secondaries (pushTruthy primary.email),
        phoneNumbers := dedupFold (·.phoneNumber) secondaries (pushTruthy primary.phoneNumber),
        secondaryContactIds := secondaries.map (·.id) } := by
    rw [buildResponse, respFold_eq]
  refine ⟨?_, ?_, ?_, ?_, ?_, ?_, ?_⟩
  · intro v hv
    rw [hb]
    have hvne : v ≠ "" := fun h => hp.1 (by rw [hv, h])
    obtain ⟨t, ht⟩ := dedupFold_prefix (·.email) secondaries (pushTruthy primary.email)
    simp only
    rw [ht, hv, pushTruthy, if_neg (by simpa using hvne)]
    rfl
  · intro v hv
    rw [hb]
    have hvne : v ≠ "" := fun h => hp.2 (by rw [hv, h])
    obtain ⟨t, ht⟩ := dedupFold_prefix (·.phoneNumber) secondaries (pushTruthy primary.phoneNumber)
    simp only
    rw [ht, hv, pushTruthy, if_neg (by simpa using hvne)]
    rfl
  · rw [hb]
    exact dedupFold_nodup _ _ _ (pushTruthy_nodup _)
  · rw [hb]
    exact dedupFold_nodup _ _ _ (pushTruthy_nodup _)
  · intro v
    rw [hb]
    simp only
    rw [dedupFold_mem, pushTruthy_mem]
    constructor
    · rintro (⟨h, -⟩ | ⟨c, hc, hcv, -⟩)
      · exact Or.inl h
      · exact Or.inr ⟨c, hc, hcv⟩
    · rintro (h | ⟨c, hc, hcv⟩)
      · exact Or.inl ⟨h, fun hv => hp.1 (by rw [h, hv])⟩
      · exact Or.inr ⟨c, hc, hcv, fun hv => (hs c hc).1 (by rw [hcv, hv])⟩
  · intro v
    rw [hb]
    simp only
    rw [dedupFold_mem, pushTruthy_mem]
    constructor
    · rintro (⟨h, -⟩ | ⟨c, hc, hcv, -⟩)
      · exact Or.inl h
      · exact Or.inr ⟨c, hc, hcv⟩
    · rintro (h | ⟨c, hc, hcv⟩)
      · exact Or.inl ⟨h, fun hv => hp.2 (by rw [h, hv])⟩
      · exact Or.inr ⟨c, hc, hcv, fun hv => (hs c hc).2 (by rw [hcv, hv])⟩
  · rw [hb]

/-- C7 witness: the payload properties evaluated on a concrete survivor
and one concrete secondary. -/
theorem c7_witness :
    (buildResponse c7Primary [c7Secondary]).emails.head? = some "a" ∧
    (buildResponse c7Primary [c7Secondary]).phoneNumbers.head? = some "1" ∧
    (buildResponse c7Primary [c7Secondary]).emails.Nodup ∧
    ("b" ∈ (buildResponse c7Primary [c7Secondary]).emails ↔
      (c7Primary.email = some "b" ∨ ∃ c ∈ [c7Secondary], c.email = some "b")) ∧
    (buildResponse c7Primary [c7Secondary]).secondaryContactIds = [2] :=
  have h := c7_theorem c7Primary [c7Secondary] (by constructor <;> decide)
    (by intro c hc; rw [List.mem_singleton] at hc; subst hc; constructor <;> decide)
  ⟨h.1 "a" (by decide), h.2.1 "1" (by decide), h.2.2.1, h.2.2.2.2.1 "b",
    by rw [h.2.2.2.2.2.2]; rfl⟩

/-! ## Ordering lemmas for the modelled query ordering -/

/-- `contactLe` is reflexive. -/
theorem contactLe_refl (a : Contact) : contactLe a a = true := by
  simp [contactLe]

/-- `contactLe` is total. -/
theorem contactLe_total (a b : Contact) :
    contactLe a b = true ∨ contactLe b a = true := by
  simp only [contactLe, Bool.or_eq_true, Bool.and_eq_true, decide_eq_true_eq, beq_iff_eq]
  omega

/-- `contactLe` is transitive. -/
theorem contactLe_trans {a b c : Contact} (hab : contactLe a b = true)
    (hbc : contactLe b c = true) : contactLe a c = true := by
  simp only [contactLe, Bool.or_eq_true, Bool.and_eq_true, decide_eq_true_eq,
    beq_iff_eq] at hab hbc ⊢
  omega

/-- `insertSorted` is a permutation of consing. -/
theorem insertSorted_perm (c : Contact) (xs : List Contact) :
    List.Perm (insertSorted c xs) (c :: xs) := by
  induction xs with
  | nil => rfl
  | cons d ds ih =>
    rw [insertSorted]
    split
    · rfl
    · exact (List.Perm.cons d ih).trans (List.Perm.swap c d ds)

/-- `sortContacts` permutes its input. -/
theorem sortContacts_perm (xs : List Contact) :
    List.Perm (sortContacts xs) xs := by
  induction xs with
  | nil => rfl
  | cons c cs ih =>
    rw [sortContacts]
    exact (insertSorted_perm c (sortContacts cs)).trans (List.Perm.cons c ih)

/-- Membership in `sortContacts`. -/
theorem sortContacts_mem {xs : List Contact} {a : Contact} :
    a ∈ sortContacts xs ↔ a ∈ xs :=
  (sortContacts_perm xs).mem_iff

/-- Membership in `insertSorted`. -/
theorem insertSorted_mem {c : Contact} {xs : List Contact} {a : Contact} :
    a ∈ insertSorted c xs ↔ a = c ∨ a ∈ xs := by
  rw [(insertSorted_perm c xs).mem_iff, List.mem_cons]

/-- `insertSorted` preserves sortedness. -/
theorem insertSorted_pairwise {c : Contact} {xs : List Contact}
    (h : List.Pairwise (fun a b => contactLe a b = true) xs) :
    List.Pairwise (fun a b => contactLe a b = true) (insertSorted c xs) := by
  induction xs with
  | nil => simp [insertSorted]
  | cons d ds ih =>
    rw [List.pairwise_cons] at h
    rw [insertSorted]
    split
    · rename_i hcd
      rw [List.pairwise_cons]
      refine ⟨?_, List.pairwise_cons.mpr h⟩
      intro x hx
      rw [List.mem_cons] at hx
      rcases hx with rfl | hx
      · exact hcd
      · exact contactLe_trans hcd (h.1 x hx)
    · rename_i hcd
      have hdc : contactLe d c = true := by
        rcases contactLe_total c d with hh | hh
        · exact absurd hh hcd
        · exact hh
      rw [List.pairwise_cons]
      refine ⟨?_, ih h.2⟩
      intro x hx
      rw [insertSorted_mem] at hx
      rcases hx with rfl | hx
      · exact hdc
      · exact h.1 x hx

/-- `sortContacts` sorts by the modelled `(createdAt, id)` order. -/
theorem sortContacts_pairwise (xs : List Contact) :
    List.Pairwise (fun a b => contactLe a b = true) (sortContacts xs) := by
  induction xs with
  | nil => simp [sortContacts]
  | cons c cs ih =>
    rw [sortContacts]
    exact insertSorted_pairwise ih

/-- The head of a sorted nonempty result is a lower bound of the input. -/
theorem sortContacts_head_min {xs : List Contact} {root : Contact}
    {rest : List Contact} (h : sortContacts xs = root :: rest) :
    ∀ c ∈ xs, contactLe root c = true := by
  intro c hc
  have hmem : c ∈ root :: rest := by
    rw [← h, sortContacts_mem]
    exact hc
  rw [List.mem_cons] at hmem
  rcases hmem with rfl | hmem
  · exact contactLe_refl c
  · have hp := sortContacts_pairwise xs
    rw [h, List.pairwise_cons] at hp
    exact hp.1 c hmem

/-! ## C3: survivor selection in step 2 -/

/-- C3: in step 2 with a non-empty match set, the primaries fetch
returns exactly the live rows whose id is among the collected root ids,
sorted ascending by `(createdAt, id)`; the head — bound as `rootPrimary`
(the survivor) by `reconcile`, the tail being the losers — is a row of
the store, live, has a collected root id, and is minimal under the
lexicographic `(createdAt, id)` order among all live rows with a
collected root id. -/
theorem c3_theorem (s : Store) (ids : List Nat) (root : Contact)
    (rest : List Contact) (h : findPrimaries s ids = root :: rest) :
    List.Pairwise (fun a b => contactLe a b = true) (root :: rest) ∧
    root ∈ s.rows ∧ isLive root = true ∧ ids.contains root.id = true ∧
    (∀ c ∈ s.rows, isLive c = true → ids.contains c.id = true →
      contactLe root c = true) ∧
    (∀ c, c ∈ root :: rest ↔
      (c ∈ s.rows ∧ isLive c = true ∧ ids.contains c.id = true)) := by
  have h' : sortContacts (s.rows.filter (fun c => isLive c && ids.contains c.id)) =
      root :: rest := h
  have hmem : ∀ c, c ∈ root :: rest ↔
      (c ∈ s.rows ∧ isLive c = true ∧ ids.contains c.id = true) := by
    intro c
    rw [← h', sortContacts_mem, List.mem_filter, Bool.and_eq_true]
  have hroot := (hmem root).mp (List.mem_cons_self root rest)
  refine ⟨?_, hroot.1, hroot.2.1, hroot.2.2, ?_, hmem⟩
  · rw [← h']
    exact sortContacts_pairwise _
  · intro c hc hlive hid
    refine sortContacts_head_min h' c ?_
    rw [List.mem_filter]
    exact ⟨hc, by rw [hlive, hid]; rfl⟩

/-- C3 witness: on the concrete store the fetch sorts the tied rows by
ascending id, the survivor is the tied row with id 1, and it is minimal
among the live candidate rows. -/
theorem c3_witness :
    (∀ c ∈ c3Store.rows, isLive c = true → [2, 1, 3].contains c.id = true →
      contactLe c3Root c = true) ∧ c3Root.id = 1 :=
  have hfp : findPrimaries c3Store [2, 1, 3] = c3Root ::
      [ { id := 2, email := some "b", phoneNumber := some "2", linkedId := none,
          linkPrecedence := .primary, createdAt := 7, deletedAt := none },
        { id := 3, email := some "c", phoneNumber := some "3", linkedId := none,
          linkPrecedence := .primary, createdAt := 9, deletedAt := none } ] := by
    decide
  ⟨(c3_theorem c3Store [2, 1, 3] c3Root _ hfp).2.2.2.2.1, rfl⟩

/-- C6 counterexample: the input matches the dangling secondary (phone
"2") and the live primary (email "a"); the call does not fail with any
internal error — it silently drops the missing root id 9, proceeds with
the remaining primary, and commits an insert. -/
theorem c6_counterexample :
    (c6Dangling ∈ c6Store.rows ∧ isLive c6Dangling = true ∧
      c6Dangling.linkPrecedence = Precedence.secondary ∧
      c6Dangling.linkedId = some 9 ∧ ∀ d ∈ c6Store.rows, d.id ≠ 9) ∧
    matchesInput (some "a") (some "2") c6Dangling = true ∧
    reconcile c6Store (some "a") (some "2") =
      .ok ({ primaryContactId := 1, emails := ["a"], phoneNumbers := ["1", "2"],
             secondaryContactIds := [3] }, c6StoreAfter) := by
  refine ⟨by decide, by decide, ?_⟩
  rfl

/-- C6 amended: a dangling root id is silently dropped by the
live-filtered primaries fetch; whenever the match set is non-empty, every
matched row resolves to some root id, and at least one resolved root row
is live, `reconcile` succeeds with a payload — it never surfaces an
invariant error for the dangling link and never retries. -/
theorem c6_theorem (s : Store) (e p : Option String) (roots : List Nat)
    (root : Contact) (rest : List Contact)
    (hne : (findMatching s e p).isEmpty = false)
    (hroots : collectRootIds (findMatching s e p) = .ok roots)
    (hfp : findPrimaries s roots = root :: rest) :
    ∃ out, reconcile s e p = .ok out := by
  simp only [reconcile, hne, hroots, hfp, Bool.false_eq_true, if_false]
  split
  · exact ⟨_, rfl⟩
  · exact ⟨_, rfl⟩

/-- C6 witness: the amended statement applied to the concrete dangling
store. -/
theorem c6_witness : ∃ out, reconcile c6Store (some "a") (some "2") = .ok out :=
  c6_theorem c6Store (some "a") (some "2") [1, 9] c6Primary []
    (by decide) (by rfl) (by rfl)

/-! ## Unfolding lemmas for the three outcomes of a reconcile attempt -/

/-- A reconcile attempt with an empty match set creates a primary. -/
theorem reconcile_eq_of_empty (s : Store) (e p : Option String)
    (hemp : (findMatching s e p).isEmpty = true) :
    reconcile s e p =
      .ok (buildResponse (insertRow s e p none .primary).1 [],
           (insertRow s e p none .primary).2) := by
  simp only [reconcile, hemp, if_true]

/-- A reconcile attempt that reaches step 5 with a true attach condition
inserts one secondary under the survivor and reports the group plus the
new row. -/
theorem reconcile_eq_of_attach (s : Store) (e p : Option String)
    (roots : List Nat) (root : Contact) (rest : List Contact)
    (s1 : Store) (g : List Contact)
    (hne : (findMatching s e p).isEmpty = false)
    (hroots : collectRootIds (findMatching s e p) = .ok roots)
    (hfp : findPrimaries s roots = root :: rest)
    (hs1 : s1 = { rows := mergeAll root.id (rest.map (·.id)) s.rows,
                  nextId := s.nextId, now := s.now })
    (hg : g = findGroup s1 root.id)
    (hac : attachCond g e p = true) :
    reconcile s e p =
      .ok (buildResponse root
            ((g ++ [(insertRow s1 e p (some root.id) .secondary).1]).filter
              (fun c => c.id != root.id)),
           (insertRow s1 e p (some root.id) .secondary).2) := by
  subst hs1
  subst hg
  simp only [reconcile, hne, hroots, hfp, Bool.false_eq_true, if_false, hac, if_true]

/-- A reconcile attempt that reaches step 5 with a false attach condition
performs no insert and reports the group. -/
theorem reconcile_eq_of_noattach (s : Store) (e p : Option String)
    (roots : List Nat) (root : Contact) (rest : List Contact)
    (s1 : Store) (g : List Contact)
    (hne : (findMatching s e p).isEmpty = false)
    (hroots : collectRootIds (findMatching s e p) = .ok roots)
    (hfp : findPrimaries s roots = root :: rest)
    (hs1 : s1 = { rows := mergeAll root.id (rest.map (·.id)) s.rows,
                  nextId := s.nextId, now := s.now })
    (hg : g = findGroup s1 root.id)
    (hac : attachCond g e p = false) :
    reconcile s e p =
      .ok (buildResponse root (g.filter (fun c => c.id != root.id)), s1) := by
  subst hs1
  subst hg
  simp only [reconcile, hne, hroots, hfp, Bool.false_eq_true, if_false, hac]

/-! ## Helper lemmas about matching and root collection -/

/-- The match set is non-empty exactly when some live row satisfies the
match condition. -/
theorem findMatching_isEmpty_false {s : Store} {e p : Option String}
    {c : Contact} (hc : c ∈ s.rows) (hlive : isLive c = true)
    (hm : matchCondition e p c = true) :
    (findMatching s e p).isEmpty = false := by
  rw [List.isEmpty_eq_false_iff_exists_mem]
  refine ⟨c, ?_⟩
  rw [findMatching, sortContacts_mem, List.mem_filter]
  exact ⟨hc, by rw [hlive, hm]; rfl⟩

/-- Membership in the match set. -/
theorem findMatching_mem {s : Store} {e p : Option String} {c : Contact} :
    c ∈ findMatching s e p ↔
      c ∈ s.rows ∧ isLive c = true ∧ matchCondition e p c = true := by
  rw [findMatching, sortContacts_mem, List.mem_filter, Bool.and_eq_true]

/-- A present, validated input field makes any live row carrying the same
value a match. -/
theorem matchCondition_of_field {e p : Option String} {c : Contact}
    (h : (∃ v, e = some v ∧ v ≠ "" ∧ c.email = some v) ∨
         (∃ v, p = some v ∧ v ≠ "" ∧ c.phoneNumber = some v)) :
    matchCondition e p c = true := by
  rcases h with ⟨v, he, hv, hce⟩ | ⟨v, hp, hv, hcp⟩
  · have ht : truthy e = true := by
      rw [he, truthy]
      simpa using hv
    rw [matchCondition, if_pos (by rw [ht]; rfl), matchesInput]
    rw [he] at ht ⊢
    rw [hce]
    simp [truthy, hv]
  · have ht : truthy p = true := by
      rw [hp, truthy]
      simpa using hv
    have hor : (truthy e || truthy p) = true := by rw [ht, Bool.or_true]
    rw [matchCondition, if_pos hor, matchesInput]
    rw [hp] at ht ⊢
    rw [hcp]
    simp [truthy, hv]

/-- A successful root collection yields a collected id for every match. -/
theorem collectRootIds_mem {ms : List Contact} {roots : List Nat}
    (h : collectRootIds ms = .ok roots) :
    ∀ c ∈ ms, ∃ i, rootIdOf c = .ok i ∧ i ∈ roots := by
  induction ms generalizing roots with
  | nil => intro c hc; exact absurd hc (List.not_mem_nil c)
  | cons a l ih =>
    rw [collectRootIds] at h
    cases ha : rootIdOf a with
    | error u => rw [ha] at h; exact absurd h (by simp)
    | ok i =>
      rw [ha] at h
      cases hl : collectRootIds l with
      | error u => rw [hl] at h; exact absurd h (by simp)
      | ok is =>
        rw [hl] at h
        have hroots : roots = i :: is := by simpa using h.symm
        intro c hc
        rw [List.mem_cons] at hc
        rcases hc with rfl | hc
        · exact ⟨i, ha, by rw [hroots]; exact List.mem_cons_self i is⟩
        · obtain ⟨j, hj, hjs⟩ := ih hl c hc
          exact ⟨j, hj, by rw [hroots]; exact List.mem_cons_of_mem i hjs⟩

/-- Membership in the primaries fetch. -/
theorem findPrimaries_mem {s : Store} {ids : List Nat} {c : Contact} :
    c ∈ findPrimaries s ids ↔
      c ∈ s.rows ∧ isLive c = true ∧ ids.contains c.id = true := by
  rw [findPrimaries, sortContacts_mem, List.mem_filter, Bool.and_eq_true]

/-- Membership in the group re-read. -/
theorem findGroup_mem {s : Store} {rootId : Nat} {c : Contact} :
    c ∈ findGroup s rootId ↔
      c ∈ s.rows ∧ isLive c = true ∧
        (c.id == rootId || c.linkedId == some rootId) = true := by
  rw [findGroup, sortContacts_mem, List.mem_filter, Bool.and_eq_true]

/-- Convert list membership to a `contains` fact. -/
theorem nat_contains_of_mem {l : List Nat} {i : Nat} (h : i ∈ l) :
    l.contains i = true := by
  simpa using h

/-- The attach condition is off whenever the exact-duplicate guard fires. -/
theorem attachCond_of_dup {g : List Contact} {e p : Option String}
    (h : exactDup g e p = true) : attachCond g e p = false := by
  simp [attachCond, h]

/-- The root id of a primary row. -/
theorem rootIdOf_primary {c : Contact} (h : c.linkPrecedence = .primary) :
    rootIdOf c = .ok c.id := by
  rw [rootIdOf, if_pos (by rw [h]; rfl)]

/-- The root id of a secondary row with a present link. -/
theorem rootIdOf_secondary {c : Contact} {i : Nat}
    (h : c.linkPrecedence = .secondary) (hl : c.linkedId = some i) :
    rootIdOf c = .ok i := by
  rw [rootIdOf, if_neg (by rw [h]; simp), hl]

/-- Under the store invariants, any live matched row of a singleton root
fetch belongs to the survivor's group: it is the root itself or links
directly to it. -/
theorem matched_in_group_of_single_root {s : Store} {e p : Option String}
    {roots : List Nat} {root : Contact} {row : Contact}
    (hwf : WF s)
    (hroots : collectRootIds (findMatching s e p) = .ok roots)
    (hfp : findPrimaries s roots = [root])
    (hrow : row ∈ findMatching s e p) :
    row.id = root.id ∨ row.linkedId = some root.id := by
  obtain ⟨hrowmem, hrowlive, -⟩ := findMatching_mem.mp hrow
  cases hprec : row.linkPrecedence with
  | primary =>
    obtain ⟨i, hio, hiroots⟩ := collectRootIds_mem hroots row hrow
    rw [rootIdOf_primary hprec] at hio
    have hid : i = row.id := by simpa using hio.symm
    subst hid
    have : row ∈ findPrimaries s roots := by
      rw [findPrimaries_mem]
      exact ⟨hrowmem, hrowlive, nat_contains_of_mem hiroots⟩
    rw [hfp, List.mem_singleton] at this
    exact Or.inl (by rw [this])
  | secondary =>
    obtain ⟨r, hrmem, hrlink, hrlive, hrprim⟩ := hwf.secLink row hrowmem hrowlive hprec
    obtain ⟨i, hio, hiroots⟩ := collectRootIds_mem hroots row hrow
    rw [rootIdOf_secondary hprec hrlink] at hio
    have hid : i = r.id := by simpa using hio.symm
    subst hid
    have : r ∈ findPrimaries s roots := by
      rw [findPrimaries_mem]
      exact ⟨hrmem, hrlive, nat_contains_of_mem hiroots⟩
    rw [hfp, List.mem_singleton] at this
    rw [this] at hrlink
    exact Or.inr hrlink

/-! ## C8: inert input is a no-op -/

/-- C8: when the matched rows resolve to a single live root and some live
row of the store already holds exactly the pair `(e, p)` (absent equal to
absent), `reconcile` performs no writes — the returned store is the input
store — and the payload is the consolidated view of the existing group. -/
theorem c8_theorem (s : Store) (e p : Option String) (roots : List Nat)
    (root : Contact)
    (hwf : WF s) (hv : ValidInput e p)
    (hroots : collectRootIds (findMatching s e p) = .ok roots)
    (hfp : findPrimaries s roots = [root])
    (hpair : ∃ row ∈ s.rows, isLive row = true ∧ row.email = e ∧ row.phoneNumber = p) :
    reconcile s e p =
      .ok (buildResponse root ((findGroup s root.id).filter (fun c => c.id != root.id)), s) := by
  obtain ⟨row, hrowmem, hrowlive, hrowe, hrowp⟩ := hpair
  obtain ⟨hv1, hv2, hv3⟩ := hv
  have hmc : matchCondition e p row = true := by
    refine matchCondition_of_field ?_
    rcases hv3 with hsome | hsome
    · obtain ⟨v, hev⟩ := Option.isSome_iff_exists.mp hsome
      exact Or.inl ⟨v, hev, fun hv0 => hv1 (by rw [hev, hv0]), by rw [hrowe, hev]⟩
    · obtain ⟨v, hpv⟩ := Option.isSome_iff_exists.mp hsome
      exact Or.inr ⟨v, hpv, fun hv0 => hv2 (by rw [hpv, hv0]), by rw [hrowp, hpv]⟩
  have hne := findMatching_isEmpty_false hrowmem hrowlive hmc
  have hrowmatch : row ∈ findMatching s e p :=
    findMatching_mem.mpr ⟨hrowmem, hrowlive, hmc⟩
  have hgroup : row ∈ findGroup s root.id := by
    rw [findGroup_mem]
    refine ⟨hrowmem, hrowlive, ?_⟩
    rcases matched_in_group_of_single_root hwf hroots hfp hrowmatch with h | h
    · rw [h]
      simp
    · rw [h]
      simp
  have hdup : exactDup (findGroup s root.id) e p = true := by
    rw [exactDup, List.any_eq_true]
    refine ⟨row, hgroup, ?_⟩
    rw [hrowe, hrowp]
    simp
  have hs1 : s = ⟨mergeAll root.id (([] : List Contact).map (·.id)) s.rows,
      s.nextId, s.now⟩ := rfl
  exact reconcile_eq_of_noattach s e p roots root [] s (findGroup s root.id)
    hne hroots hfp hs1 rfl (attachCond_of_dup hdup)

/-- `AtMostOnePrimary` holds as soon as no two distinct live primaries
exist at all. -/
theorem atMostOne_of_unique {rows : List Contact}
    (h : ∀ a ∈ rows, ∀ b ∈ rows, isLive a = true → isLive b = true →
      a.linkPrecedence = .primary → b.linkPrecedence = .primary → a = b) :
    AtMostOnePrimary rows :=
  fun a b ha hb la lb pa pb _ => h a ha b hb la lb pa pb

/-- C8 witness: replaying the exact stored pair against its own group
returns the existing group and leaves the store untouched. -/
theorem c8_witness :
    reconcile c8Store (some "a") (some "1") =
      .ok (buildResponse c8Row ((findGroup c8Store c8Row.id).filter
        (fun c => c.id != c8Row.id)), c8Store) :=
  c8_theorem c8Store (some "a") (some "1") [1] c8Row
    ⟨by decide, by decide, by decide, by decide, by decide, by decide,
     atMostOne_of_unique (by decide)⟩
    ⟨by decide, by decide, Or.inl (by decide)⟩
    (by rfl) (by rfl) ⟨c8Row, by decide⟩

/-! ## C10: the inserted secondary is last in the payload -/

/-- C10: whenever a reconcile attempt takes the attach branch (non-empty
match set, live survivor, true attach condition), the returned payload's
`secondaryContactIds` is non-empty and its last element is the id the
store assigns to the row inserted by this call, namely `s.nextId`. -/
theorem c10_theorem (s : Store) (e p : Option String) (roots : List Nat)
    (root : Contact) (rest : List Contact) (s1 : Store) (g : List Contact)
    (hwf : WF s)
    (hne : (findMatching s e p).isEmpty = false)
    (hroots : collectRootIds (findMatching s e p) = .ok roots)
    (hfp : findPrimaries s roots = root :: rest)
    (hs1 : s1 = { rows := mergeAll root.id (rest.map (·.id)) s.rows,
                  nextId := s.nextId, now := s.now })
    (hg : g = findGroup s1 root.id)
    (hac : attachCond g e p = true) :
    ∃ r s2, reconcile s e p = .ok (r, s2) ∧
      r.secondaryContactIds ≠ [] ∧
      r.secondaryContactIds.getLast? = some s.nextId := by
  have hre := reconcile_eq_of_attach s e p roots root rest s1 g hne hroots hfp hs1 hg hac
  refine ⟨_, _, hre, ?_, ?_⟩
  all_goals {
    have hrootmem : root ∈ s.rows := by
      have : root ∈ findPrimaries s roots := by
        rw [hfp]
        exact List.mem_cons_self root rest
      exact (findPrimaries_mem.mp this).1
    have hrootlt : root.id < s.nextId := hwf.idLt root hrootmem
    have hnid : (insertRow s1 e p (some root.id) .secondary).1.id = s.nextId := by
      rw [insertRow, hs1]
    have hfl : ((g ++ [(insertRow s1 e p (some root.id) .secondary).1]).filter
        (fun c => c.id != root.id)) =
        g.filter (fun c => c.id != root.id) ++
          [(insertRow s1 e p (some root.id) .secondary).1] := by
      rw [List.filter_append]
      have : ([(insertRow s1 e p (some root.id) .secondary).1].filter
          (fun c => c.id != root.id)) =
          [(insertRow s1 e p (some root.id) .secondary).1] := by
        have hb : ((insertRow s1 e p (some root.id) .secondary).1.id != root.id) = true := by
          rw [hnid, bne_iff_ne]
          omega
        rw [List.filter_singleton, hb]
        rfl
      rw [this]
    simp only [buildResponse, hfl, List.map_append, List.map_cons, List.map_nil]
    first
    | rw [List.getLast?_concat, hnid]
    | simp
  }

/-- C10 witness: attaching a new email to the known phone yields a
payload whose last (and only) secondary id is the freshly assigned id
2. -/
theorem c10_witness :
    ∃ r s2, reconcile c10Store (some "b") (some "1") = .ok (r, s2) ∧
      r.secondaryContactIds ≠ [] ∧
      r.secondaryContactIds.getLast? = some c10Store.nextId :=
  c10_theorem c10Store (some "b") (some "1") [1] c10Row [] c10Store
    (findGroup c10Store 1)
    ⟨by decide, by decide, by decide, by decide, by decide, by decide,
     atMostOne_of_unique (by decide)⟩
    (by rfl) (by rfl) (by rfl) (by rfl) (by rfl) (by decide)

/-- The merge loop rewrites every row independently. -/
theorem mergeAll_eq_map (root : Nat) (losers : List Nat) (rows : List Contact) :
    mergeAll root losers rows = rows.map (demoteAllStep root losers) := by
  induction losers generalizing rows with
  | nil =>
    show rows = rows.map (demoteAllStep root [])
    rw [show rows.map (demoteAllStep root []) = rows.map (fun c => c) from rfl]
    rw [List.map_id']
  | cons l ls ih =>
    rw [mergeAll, List.foldl_cons]
    rw [show List.foldl _ _ ls = mergeAll root ls (rows.map (demoteStep root l)) from rfl]
    rw [ih, List.map_map]
    rfl

/-- `demoteStep` never touches id, email, phone, createdAt or deletedAt. -/
theorem demoteStep_fields (root l : Nat) (c : Contact) :
    (demoteStep root l c).id = c.id ∧
    (demoteStep root l c).email = c.email ∧
    (demoteStep root l c).phoneNumber = c.phoneNumber ∧
    (demoteStep root l c).createdAt = c.createdAt ∧
    (demoteStep root l c).deletedAt = c.deletedAt := by
  rw [demoteStep]
  split
  · exact ⟨rfl, rfl, rfl, rfl, rfl⟩
  · split
    · exact ⟨rfl, rfl, rfl, rfl, rfl⟩
    · exact ⟨rfl, rfl, rfl, rfl, rfl⟩

/-- `demoteAllStep` never touches id, email, phone, createdAt or
deletedAt. -/
theorem demoteAllStep_fields (root : Nat) (ls : List Nat) (c : Contact) :
    (demoteAllStep root ls c).id = c.id ∧
    (demoteAllStep root ls c).email = c.email ∧
    (demoteAllStep root ls c).phoneNumber = c.phoneNumber ∧
    (demoteAllStep root ls c).createdAt = c.createdAt ∧
    (demoteAllStep root ls c).deletedAt = c.deletedAt := by
  induction ls generalizing c with
  | nil => exact ⟨rfl, rfl, rfl, rfl, rfl⟩
  | cons l ls ih =>
    have hstep := demoteStep_fields root l c
    have hrest := ih (demoteStep root l c)
    rw [show demoteAllStep root (l :: ls) c =
      demoteAllStep root ls (demoteStep root l c) from rfl]
    exact ⟨hrest.1.trans hstep.1, hrest.2.1.trans hstep.2.1,
      hrest.2.2.1.trans hstep.2.2.1, hrest.2.2.2.1.trans hstep.2.2.2.1,
      hrest.2.2.2.2.trans hstep.2.2.2.2⟩

/-- `demoteAllStep` preserves liveness. -/
theorem demoteAllStep_isLive (root : Nat) (ls : List Nat) (c : Contact) :
    isLive (demoteAllStep root ls c) = isLive c := by
  rw [isLive, isLive, (demoteAllStep_fields root ls c).2.2.2.2]

/-- One merge iteration leaves a row alone when neither branch fires. -/
theorem demoteStep_eq_self {root l : Nat} {c : Contact}
    (hid : (c.id == l) = false)
    (hlink : ((c.linkedId == some l) && isLive c) = false) :
    demoteStep root l c = c := by
  simp only [demoteStep, hid, hlink, Bool.false_eq_true, if_false]

/-- A row whose id and link target escape the loser set is untouched. -/
theorem demoteAllStep_eq_self {root : Nat} {ls : List Nat} {c : Contact}
    (hid : ∀ l ∈ ls, c.id ≠ l) (hlink : ∀ l ∈ ls, c.linkedId ≠ some l) :
    demoteAllStep root ls c = c := by
  induction ls with
  | nil => rfl
  | cons l ls ih =>
    rw [show demoteAllStep root (l :: ls) c =
      demoteAllStep root ls (demoteStep root l c) from rfl]
    have hstep : demoteStep root l c = c := by
      refine demoteStep_eq_self ?_ ?_
      · rw [beq_eq_false_iff_ne]
        exact hid l (List.mem_cons_self l ls)
      · rw [Bool.and_eq_false_iff]
        refine Or.inl ?_
        rw [beq_eq_false_iff_ne]
        exact hlink l (List.mem_cons_self l ls)
    rw [hstep]
    exact ih (fun x hx => hid x (List.mem_cons_of_mem l hx))
      (fun x hx => hlink x (List.mem_cons_of_mem l hx))

/-- A dead row outside the loser id set is untouched (the re-link branch
filters on liveness). -/
theorem demoteAllStep_eq_self_of_dead {root : Nat} {ls : List Nat} {c : Contact}
    (hdead : isLive c = false) (hid : ∀ l ∈ ls, c.id ≠ l) :
    demoteAllStep root ls c = c := by
  induction ls with
  | nil => rfl
  | cons l ls ih =>
    rw [show demoteAllStep root (l :: ls) c =
      demoteAllStep root ls (demoteStep root l c) from rfl]
    have hstep : demoteStep root l c = c := by
      refine demoteStep_eq_self ?_ ?_
      · rw [beq_eq_false_iff_ne]
        exact hid l (List.mem_cons_self l ls)
      · rw [Bool.and_eq_false_iff]
        exact Or.inr hdead
    rw [hstep]
    exact ih (fun x hx => hid x (List.mem_cons_of_mem l hx))

/-- A row already demoted under the survivor is a fixed point of every
merge iteration whose loser is not the survivor itself. -/
theorem demoteAllStep_fixed {root : Nat} {ls : List Nat} {c : Contact}
    (hlink : c.linkedId = some root) (hsec : c.linkPrecedence = .secondary)
    (hroot : ∀ l ∈ ls, root ≠ l) :
    demoteAllStep root ls c = c := by
  induction ls with
  | nil => rfl
  | cons l ls ih =>
    rw [show demoteAllStep root (l :: ls) c =
      demoteAllStep root ls (demoteStep root l c) from rfl]
    have hstep : demoteStep root l c = c := by
      by_cases hidl : (c.id == l) = true
      · rw [demoteStep, if_pos hidl]
        cases c
        simp_all
      · refine demoteStep_eq_self (by simpa using hidl) ?_
        rw [Bool.and_eq_false_iff]
        refine Or.inl ?_
        rw [beq_eq_false_iff_ne, hlink]
        intro hs
        exact hroot l (List.mem_cons_self l ls) (by simpa using hs)
    rw [hstep]
    exact ih (fun x hx => hroot x (List.mem_cons_of_mem l hx))

/-- The whole loop on a loser row: demoted under the survivor. -/
theorem demoteAllStep_demoted {root : Nat} {ls : List Nat} {c : Contact}
    (hmem : c.id ∈ ls) (hnone : c.linkedId = none)
    (hroot : ∀ l ∈ ls, root ≠ l) :
    demoteAllStep root ls c =
      { c with linkedId := some root, linkPrecedence := .secondary } := by
  induction ls with
  | nil => exact absurd hmem (List.not_mem_nil c.id)
  | cons l ls ih =>
    rw [show demoteAllStep root (l :: ls) c =
      demoteAllStep root ls (demoteStep root l c) from rfl]
    by_cases hidl : (c.id == l) = true
    · rw [demoteStep, if_pos hidl]
      exact demoteAllStep_fixed rfl rfl (fun x hx => hroot x (List.mem_cons_of_mem l hx))
    · have hmem' : c.id ∈ ls := by
        rw [List.mem_cons] at hmem
        rcases hmem with h | h
        · exact absurd (by rw [h]; exact beq_self_eq_true l) hidl
        · exact h
      have hstep : demoteStep root l c = c := by
        refine demoteStep_eq_self (by simpa using hidl) ?_
        rw [Bool.and_eq_false_iff]
        refine Or.inl ?_
        rw [beq_eq_false_iff_ne, hnone]
        intro hs
        exact Option.noConfusion hs
      rw [hstep]
      exact ih hmem' (fun x hx => hroot x (List.mem_cons_of_mem l hx))

/-- The whole loop on a live child of a loser: re-linked to the
survivor. -/
theorem demoteAllStep_relinked {root : Nat} {ls : List Nat} {c : Contact} {t : Nat}
    (hlink : c.linkedId = some t) (ht : t ∈ ls) (hlive : isLive c = true)
    (hid : ∀ l ∈ ls, c.id ≠ l) (hroot : ∀ l ∈ ls, root ≠ l) :
    demoteAllStep root ls c = { c with linkedId := some root } := by
  induction ls with
  | nil => exact absurd ht (List.not_mem_nil t)
  | cons l ls ih =>
    rw [show demoteAllStep root (l :: ls) c =
      demoteAllStep root ls (demoteStep root l c) from rfl]
    by_cases hlt : l = t
    · subst hlt
      have hc1 : (c.id == l) = false := by
        rw [beq_eq_false_iff_ne]
        exact hid l (List.mem_cons_self l ls)
      have hc2 : ((c.linkedId == some l) && isLive c) = true := by
        rw [Bool.and_eq_true]
        exact ⟨by rw [hlink]; simp, hlive⟩
      have hstep : demoteStep root l c = { c with linkedId := some root } := by
        simp only [demoteStep, hc1, hc2, Bool.false_eq_true, if_false, if_true]
      rw [hstep]
      refine demoteAllStep_eq_self ?_ ?_
      · intro x hx
        exact hid x (List.mem_cons_of_mem l hx)
      · intro x hx hs
        simp only at hs
        exact hroot x (List.mem_cons_of_mem l hx) (by simpa using hs)
    · have ht' : t ∈ ls := by
        rw [List.mem_cons] at ht
        rcases ht with h | h
        · exact absurd h.symm hlt
        · exact h
      have hstep : demoteStep root l c = c := by
        refine demoteStep_eq_self ?_ ?_
        · rw [beq_eq_false_iff_ne]
          exact hid l (List.mem_cons_self l ls)
        · rw [Bool.and_eq_false_iff]
          refine Or.inl ?_
          rw [beq_eq_false_iff_ne, hlink]
          intro hs
          exact hlt ((Option.some_injective _ hs).symm)
      rw [hstep]
      exact ih ht' (fun x hx => hid x (List.mem_cons_of_mem l hx))
        (fun x hx => hroot x (List.mem_cons_of_mem l hx))

/-- Distinct rows carry distinct ids, so equal ids identify rows. -/
theorem wf_id_inj {s : Store} (hwf : WF s) {a b : Contact}
    (ha : a ∈ s.rows) (hb : b ∈ s.rows) (hid : a.id = b.id) : a = b :=
  List.inj_on_of_nodup_map hwf.nodup ha hb hid

/-- Every collected root id comes from some match. -/
theorem collectRootIds_mem_rev {ms : List Contact} {roots : List Nat}
    (h : collectRootIds ms = .ok roots) :
    ∀ i ∈ roots, ∃ c ∈ ms, rootIdOf c = .ok i := by
  induction ms generalizing roots with
  | nil =>
    have : roots = [] := by
      rw [collectRootIds] at h
      simpa using h.symm
    subst this
    intro i hi
    exact absurd hi (List.not_mem_nil i)
  | cons a l ih =>
    rw [collectRootIds] at h
    cases ha : rootIdOf a with
    | error u => rw [ha] at h; exact absurd h (by simp)
    | ok j =>
      rw [ha] at h
      cases hl : collectRootIds l with
      | error u => rw [hl] at h; exact absurd h (by simp)
      | ok is =>
        rw [hl] at h
        have hroots : roots = j :: is := by simpa using h.symm
        subst hroots
        intro i hi
        rw [List.mem_cons] at hi
        rcases hi with rfl | hi
        · exact ⟨a, List.mem_cons_self a l, ha⟩
        · obtain ⟨c, hc, hci⟩ := ih hl i hi
          exact ⟨c, List.mem_cons_of_mem a hc, hci⟩

/-- Under the invariants every fetched root row is a primary. -/
theorem findPrimaries_primary {s : Store} {e p : Option String} {roots : List Nat}
    (hwf : WF s) (hroots : collectRootIds (findMatching s e p) = .ok roots) :
    ∀ x ∈ findPrimaries s roots, x.linkPrecedence = .primary := by
  intro x hx
  obtain ⟨hxmem, hxlive, hxid⟩ := findPrimaries_mem.mp hx
  have hxroots : x.id ∈ roots := by simpa using hxid
  obtain ⟨c, hc, hci⟩ := collectRootIds_mem_rev hroots x.id hxroots
  obtain ⟨hcmem, hclive, -⟩ := findMatching_mem.mp hc
  cases hcp : c.linkPrecedence with
  | primary =>
    rw [rootIdOf_primary hcp] at hci
    have : c.id = x.id := by simpa using hci
    rw [← wf_id_inj hwf hcmem hxmem this]
    exact hcp
  | secondary =>
    obtain ⟨r, hrmem, hrlink, hrlive, hrprim⟩ := hwf.secLink c hcmem hclive hcp
    rw [rootIdOf_secondary hcp hrlink] at hci
    have : r.id = x.id := by simpa using hci
    rw [← wf_id_inj hwf hrmem hxmem this]
    exact hrprim

/-- The ids of the fetched root rows are distinct. -/
theorem findPrimaries_ids_nodup {s : Store} (hwf : WF s) (ids : List Nat) :
    ((findPrimaries s ids).map (·.id)).Nodup := by
  have hsub : (s.rows.filter (fun c => isLive c && ids.contains c.id)).Sublist s.rows :=
    List.filter_sublist s.rows
  have hn : ((s.rows.filter (fun c => isLive c && ids.contains c.id)).map (·.id)).Nodup :=
    List.Nodup.sublist (hsub.map (·.id)) hwf.nodup
  have hperm : (findPrimaries s ids).Perm
      (s.rows.filter (fun c => isLive c && ids.contains c.id)) :=
    sortContacts_perm _
  exact ((hperm.map (·.id)).nodup_iff).mpr hn

/-- Facts about the survivor and the losers extracted from a successful
primaries fetch under the invariants. -/
theorem fp_facts {s : Store} {e p : Option String} {roots : List Nat}
    {root : Contact} {rest : List Contact} (hwf : WF s)
    (hroots : collectRootIds (findMatching s e p) = .ok roots)
    (hfp : findPrimaries s roots = root :: rest) :
    root ∈ s.rows ∧ isLive root = true ∧ root.linkPrecedence = .primary ∧
    root.linkedId = none ∧
    (∀ y ∈ rest, y ∈ s.rows ∧ isLive y = true ∧
      y.linkPrecedence = .primary ∧ y.linkedId = none) ∧
    (∀ l ∈ rest.map (·.id), root.id ≠ l) ∧
    (∀ x ∈ s.rows, x.id ∈ rest.map (·.id) → x ∈ rest) := by
  have hprim := findPrimaries_primary hwf hroots
  have hmemr : root ∈ findPrimaries s roots := by
    rw [hfp]
    exact List.mem_cons_self root rest
  obtain ⟨hrmem, hrlive, -⟩ := findPrimaries_mem.mp hmemr
  have hrprim : root.linkPrecedence = .primary := hprim root hmemr
  have hynone : ∀ y ∈ rest, y ∈ s.rows ∧ isLive y = true ∧
      y.linkPrecedence = .primary ∧ y.linkedId = none := by
    intro y hy
    have hymem : y ∈ findPrimaries s roots := by
      rw [hfp]
      exact List.mem_cons_of_mem root hy
    obtain ⟨hym, hyl, -⟩ := findPrimaries_mem.mp hymem
    have hyp : y.linkPrecedence = .primary := hprim y hymem
    exact ⟨hym, hyl, hyp, hwf.primNone y hym hyl hyp⟩
  have hnodup : ((root :: rest).map (·.id)).Nodup := by
    rw [← hfp]
    exact findPrimaries_ids_nodup hwf roots
  rw [List.map_cons, List.nodup_cons] at hnodup
  refine ⟨hrmem, hrlive, hrprim, hwf.primNone root hrmem hrlive hrprim, hynone, ?_, ?_⟩
  · intro l hl heq
    rw [heq] at hnodup
    exact hnodup.1 hl
  · intro x hx hxid
    obtain ⟨y, hy, hyid⟩ := List.mem_map.mp hxid
    rw [← wf_id_inj hwf hx (hynone y hy).1 hyid.symm] at hy
    exact hy

/-- Per-row outcome of the merge loop under the invariants: losers are
demoted, live children of losers are re-linked, every other row is left
unchanged. -/
theorem merged_classify {s : Store} {e p : Option String} {roots : List Nat}
    {root : Contact} {rest : List Contact} (hwf : WF s)
    (hroots : collectRootIds (findMatching s e p) = .ok roots)
    (hfp : findPrimaries s roots = root :: rest) :
    ∀ x ∈ s.rows,
      (x ∈ rest ∧ demoteAllStep root.id (rest.map (·.id)) x =
          { x with linkedId := some root.id, linkPrecedence := .secondary }) ∨
      ((∃ y ∈ rest, x.linkedId = some y.id ∧ isLive x = true) ∧
        demoteAllStep root.id (rest.map (·.id)) x =
          { x with linkedId := some root.id }) ∨
      (x ∉ rest ∧ (∀ y ∈ rest, ¬(x.linkedId = some y.id ∧ isLive x = true)) ∧
        demoteAllStep root.id (rest.map (·.id)) x = x) := by
  obtain ⟨hrmem, hrlive, hrprim, hrnone, hyfacts, hrootid, hidrest⟩ :=
    fp_facts hwf hroots hfp
  intro x hx
  have hid : x ∉ rest → ∀ l ∈ rest.map (·.id), x.id ≠ l := by
    intro hxr l hl heq
    exact hxr (hidrest x hx (by rw [heq]; exact hl))
  by_cases hxr : x ∈ rest
  · refine Or.inl ⟨hxr, ?_⟩
    exact demoteAllStep_demoted (List.mem_map_of_mem (·.id) hxr)
      (hyfacts x hxr).2.2.2 hrootid
  · by_cases hrel : ∃ y ∈ rest, x.linkedId = some y.id ∧ isLive x = true
    · obtain ⟨y, hy, hylink, hxlive⟩ := hrel
      refine Or.inr (Or.inl ⟨⟨y, hy, hylink, hxlive⟩, ?_⟩)
      exact demoteAllStep_relinked hylink (List.mem_map_of_mem (·.id) hy)
        hxlive (hid hxr) hrootid
    · refine Or.inr (Or.inr ⟨hxr, fun y hy hc => hrel ⟨y, hy, hc.1, hc.2⟩, ?_⟩)
      cases hxlive : isLive x with
      | false => exact demoteAllStep_eq_self_of_dead hxlive (hid hxr)
      | true =>
        refine demoteAllStep_eq_self (hid hxr) ?_
        intro l hl hxl
        obtain ⟨y, hy, hyid⟩ := List.mem_map.mp hl
        exact hrel ⟨y, hy, by rw [hxl, hyid], hxlive⟩

/-- The rows of the merged store are the mapped rows. -/
theorem mergedStore_rows (s : Store) (root : Contact) (rest : List Contact) :
    (mergedStore s root rest).rows =
      s.rows.map (demoteAllStep root.id (rest.map (·.id))) :=
  mergeAll_eq_map root.id (rest.map (·.id)) s.rows

/-- Every matched row lands in the survivor's group after the merge: its
merged image is the root or links directly to the root. -/
theorem matched_root_or_linked {s : Store} {e p : Option String} {roots : List Nat}
    {root : Contact} {rest : List Contact} (hwf : WF s)
    (hroots : collectRootIds (findMatching s e p) = .ok roots)
    (hfp : findPrimaries s roots = root :: rest)
    {c : Contact} (hc : c ∈ findMatching s e p) :
    (demoteAllStep root.id (rest.map (·.id)) c).id = root.id ∨
    (demoteAllStep root.id (rest.map (·.id)) c).linkedId = some root.id := by
  obtain ⟨hrmem, hrlive, hrprim, hrnone, hyfacts, hrootid, hidrest⟩ :=
    fp_facts hwf hroots hfp
  obtain ⟨hcmem, hclive, -⟩ := findMatching_mem.mp hc
  have hclass := merged_classify hwf hroots hfp c hcmem
  have hidpres := (demoteAllStep_fields root.id (rest.map (·.id)) c).1
  cases hcp : c.linkPrecedence with
  | primary =>
    obtain ⟨i, hio, hir⟩ := collectRootIds_mem hroots c hc
    rw [rootIdOf_primary hcp] at hio
    have hi : i = c.id := by simpa using hio.symm
    subst hi
    have hcin : c ∈ findPrimaries s roots :=
      findPrimaries_mem.mpr ⟨hcmem, hclive, nat_contains_of_mem hir⟩
    rw [hfp, List.mem_cons] at hcin
    rcases hcin with rfl | hcin
    · rcases hclass with ⟨h1, -⟩ | ⟨⟨y, hy, hylink, -⟩, -⟩ | ⟨-, -, heq⟩
      · exact absurd (List.mem_map_of_mem (·.id) h1) (fun hm => hrootid c.id hm rfl)
      · rw [hrnone] at hylink
        exact Option.noConfusion hylink
      · rw [heq]
        exact Or.inl rfl
    · rcases hclass with ⟨-, heq⟩ | ⟨⟨y, hy, hylink, -⟩, -⟩ | ⟨h3, -, -⟩
      · rw [heq]
        exact Or.inr rfl
      · rw [(hyfacts c hcin).2.2.2] at hylink
        exact Option.noConfusion hylink
      · exact absurd hcin h3
  | secondary =>
    obtain ⟨r, hrmem2, hrlink2, hrlive2, hrprim2⟩ := hwf.secLink c hcmem hclive hcp
    obtain ⟨i, hio, hir⟩ := collectRootIds_mem hroots c hc
    rw [rootIdOf_secondary hcp hrlink2] at hio
    have hi : i = r.id := by simpa using hio.symm
    subst hi
    have hrin : r ∈ findPrimaries s roots :=
      findPrimaries_mem.mpr ⟨hrmem2, hrlive2, nat_contains_of_mem hir⟩
    rw [hfp, List.mem_cons] at hrin
    rcases hrin with rfl | hrin
    · rcases hclass with ⟨h1, -⟩ | ⟨⟨y, hy, hylink, -⟩, -⟩ | ⟨-, -, heq⟩
      · rw [(hyfacts c h1).2.2.1] at hcp
        exact Precedence.noConfusion hcp
      · rw [hrlink2] at hylink
        have : r.id = y.id := by simpa using hylink
        exact absurd (this ▸ List.mem_map_of_mem (·.id) hy) (fun hm => hrootid r.id hm rfl)
      · rw [heq]
        exact Or.inr hrlink2
    · rcases hclass with ⟨h1, -⟩ | ⟨-, heq⟩ | ⟨-, h4, -⟩
      · rw [(hyfacts c h1).2.2.1] at hcp
        exact Precedence.noConfusion hcp
      · rw [heq]
        exact Or.inr rfl
      · exact absurd ⟨hrlink2, hclive⟩ (h4 r hrin)

/-- The merged image of a matched row is a member of the re-read group. -/
theorem matched_in_merged_group {s : Store} {e p : Option String} {roots : List Nat}
    {root : Contact} {rest : List Contact} (hwf : WF s)
    (hroots : collectRootIds (findMatching s e p) = .ok roots)
    (hfp : findPrimaries s roots = root :: rest)
    {c : Contact} (hc : c ∈ findMatching s e p) :
    demoteAllStep root.id (rest.map (·.id)) c ∈
      findGroup (mergedStore s root rest) root.id := by
  obtain ⟨hcmem, hclive, -⟩ := findMatching_mem.mp hc
  rw [findGroup_mem]
  refine ⟨?_, ?_, ?_⟩
  · rw [mergedStore_rows]
    exact List.mem_map_of_mem _ hcmem
  · rw [demoteAllStep_isLive]
    exact hclive
  · rcases matched_root_or_linked hwf hroots hfp hc with h | h
    · rw [h]
      simp
    · rw [h]
      simp

/-- If the merged group misses the input email, no live row of the store
carries it at all. -/
theorem fresh_email {s : Store} {e p : Option String} {roots : List Nat}
    {root : Contact} {rest : List Contact} {v : String} (hwf : WF s)
    (hroots : collectRootIds (findMatching s e p) = .ok roots)
    (hfp : findPrimaries s roots = root :: rest)
    (he : e = some v) (hv : v ≠ "")
    (hnew : hasNewEmail (findGroup (mergedStore s root rest) root.id) e = true) :
    ∀ c ∈ s.rows, isLive c = true → c.email ≠ some v := by
  intro c hc hclive hce
  have hmc : matchCondition e p c = true :=
    matchCondition_of_field (Or.inl ⟨v, he, hv, hce⟩)
  have hcm : c ∈ findMatching s e p := findMatching_mem.mpr ⟨hc, hclive, hmc⟩
  have hg := matched_in_merged_group hwf hroots hfp hcm
  have hemail : (demoteAllStep root.id (rest.map (·.id)) c).email = some v := by
    rw [(demoteAllStep_fields _ _ _).2.1, hce]
  rw [he, hasNewEmail, Bool.not_eq_true'] at hnew
  have : (findGroup (mergedStore s root rest) root.id).any
      (fun d => truthy d.email && d.email == some v) = true := by
    rw [List.any_eq_true]
    refine ⟨_, hg, ?_⟩
    rw [hemail, truthy]
    simp [hv]
  rw [hnew] at this
  exact Bool.noConfusion this

/-- If the merged group misses the input phone, no live row of the store
carries it at all. -/
theorem fresh_phone {s : Store} {e p : Option String} {roots : List Nat}
    {root : Contact} {rest : List Contact} {v : String} (hwf : WF s)
    (hroots : collectRootIds (findMatching s e p) = .ok roots)
    (hfp : findPrimaries s roots = root :: rest)
    (hp : p = some v) (hv : v ≠ "")
    (hnew : hasNewPhone (findGroup (mergedStore s root rest) root.id) p = true) :
    ∀ c ∈ s.rows, isLive c = true → c.phoneNumber ≠ some v := by
  intro c hc hclive hcp
  have hmc : matchCondition e p c = true :=
    matchCondition_of_field (Or.inr ⟨v, hp, hv, hcp⟩)
  have hcm : c ∈ findMatching s e p := findMatching_mem.mpr ⟨hc, hclive, hmc⟩
  have hg := matched_in_merged_group hwf hroots hfp hcm
  have hphone : (demoteAllStep root.id (rest.map (·.id)) c).phoneNumber = some v := by
    rw [(demoteAllStep_fields _ _ _).2.2.1, hcp]
  rw [hp, hasNewPhone, Bool.not_eq_true'] at hnew
  have : (findGroup (mergedStore s root rest) root.id).any
      (fun d => truthy d.phoneNumber && d.phoneNumber == some v) = true := by
    rw [List.any_eq_true]
    refine ⟨_, hg, ?_⟩
    rw [hphone, truthy]
    simp [hv]
  rw [hnew] at this
  exact Bool.noConfusion this

/-- Collecting roots over matches that all resolve to the survivor yields
a list of copies of the survivor's id, one per match. -/
theorem collectRootIds_const {ms : List Contact} {rid : Nat}
    (h : ∀ c ∈ ms, rootIdOf c = .ok rid) :
    ∃ roots, collectRootIds ms = .ok roots ∧ (∀ i ∈ roots, i = rid) ∧
      roots.length = ms.length := by
  induction ms with
  | nil => exact ⟨[], rfl, fun i hi => absurd hi (List.not_mem_nil i), rfl⟩
  | cons a l ih =>
    obtain ⟨is, his, hall, hlen⟩ := ih (fun c hc => h c (List.mem_cons_of_mem a hc))
    refine ⟨rid :: is, ?_, ?_, by simp [hlen]⟩
    · rw [collectRootIds, h a (List.mem_cons_self a l), his]
    · intro i hi
      rw [List.mem_cons] at hi
      rcases hi with rfl | hi
      · rfl
      · exact hall i hi

/-- A filter whose predicate selects exactly one element of a
duplicate-free list returns that singleton. -/
theorem filter_eq_singleton {l : List Contact} {a : Contact} {q : Contact → Bool}
    (hnd : l.Nodup) (ha : a ∈ l) (hqa : q a = true)
    (huniq : ∀ b ∈ l, q b = true → b = a) : l.filter q = [a] := by
  induction l with
  | nil => exact absurd ha (List.not_mem_nil a)
  | cons x xs ih =>
    rw [List.nodup_cons] at hnd
    rw [List.mem_cons] at ha
    rcases ha with rfl | ha
    · rw [List.filter_cons, if_pos (by rw [hqa])]
      have : xs.filter q = [] := by
        rw [List.filter_eq_nil_iff]
        intro b hb hqb
        rw [huniq b (List.mem_cons_of_mem a hb) hqb] at hb
        exact hnd.1 hb
      rw [this]
    · have hqx : q x = false := by
        cases hq : q x with
        | false => rfl
        | true =>
          rw [huniq x (List.mem_cons_self x xs) hq] at hnd
          exact absurd ha hnd.1
      rw [List.filter_cons, if_neg (by rw [hqx]; simp)]
      exact ih hnd.2 ha (fun b hb hqb => huniq b (List.mem_cons_of_mem x hb) hqb)

/-- Inserting an element that comes strictly after every list element
lands at the end. -/
theorem insertSorted_max {n : Contact} {xs : List Contact}
    (h : ∀ x ∈ xs, contactLe n x = false) :
    insertSorted n xs = xs ++ [n] := by
  induction xs with
  | nil => rfl
  | cons x xs ih =>
    rw [insertSorted, if_neg (by rw [h x (List.mem_cons_self x xs)]; simp)]
    rw [ih (fun y hy => h y (List.mem_cons_of_mem x hy))]
    rfl

/-- Sorting a list that ends with a maximal element keeps it at the
end. -/
theorem sortContacts_append_max {xs : List Contact} {n : Contact}
    (h : ∀ x ∈ xs, contactLe n x = false) :
    sortContacts (xs ++ [n]) = sortContacts xs ++ [n] := by
  induction xs with
  | nil => rfl
  | cons x xs ih =>
    rw [List.cons_append, sortContacts, sortContacts,
      ih (fun y hy => h y (List.mem_cons_of_mem x hy))]
    have hle : contactLe x n = true := by
      rcases contactLe_total x n with hx | hx
      · exact hx
      · rw [h x (List.mem_cons_self x xs)] at hx
        exact Bool.noConfusion hx
    clear ih h
    induction sortContacts xs with
    | nil =>
      rw [insertSorted, List.nil_append, insertSorted, if_pos hle]
      rfl
    | cons z zs ihz =>
      rw [List.cons_append, insertSorted, insertSorted]
      cases hxz : contactLe x z with
      | true => rfl
      | false =>
        rw [if_neg (by simp), if_neg (by simp), List.cons_append, ihz]

/-- The merged rows keep the original ids. -/
theorem mergedStore_ids (s : Store) (root : Contact) (rest : List Contact) :
    (mergedStore s root rest).rows.map (·.id) = s.rows.map (·.id) := by
  rw [mergedStore_rows, List.map_map]
  refine List.map_congr_left ?_
  intro c hc
  exact (demoteAllStep_fields root.id (rest.map (·.id)) c).1

/-- Inversion of a successful reconcile attempt into its three branch
shapes. -/
theorem reconcile_ok_cases {s : Store} {e p : Option String}
    {r : IdentifyContact} {s' : Store}
    (h : reconcile s e p = .ok (r, s')) :
    ((findMatching s e p).isEmpty = true ∧
      s' = (insertRow s e p none .primary).2 ∧
      r = buildResponse (insertRow s e p none .primary).1 []) ∨
    (∃ roots root rest,
      (findMatching s e p).isEmpty = false ∧
      collectRootIds (findMatching s e p) = .ok roots ∧
      findPrimaries s roots = root :: rest ∧
      ((attachCond (findGroup (mergedStore s root rest) root.id) e p = true ∧
        s' = (insertRow (mergedStore s root rest) e p (some root.id) .secondary).2 ∧
        r = buildResponse root
          ((findGroup (mergedStore s root rest) root.id ++
            [(insertRow (mergedStore s root rest) e p (some root.id) .secondary).1]).filter
              (fun c => c.id != root.id))) ∨
       (attachCond (findGroup (mergedStore s root rest) root.id) e p = false ∧
        s' = mergedStore s root rest ∧
        r = buildResponse root
          ((findGroup (mergedStore s root rest) root.id).filter
            (fun c => c.id != root.id))))) := by
  by_cases hemp : (findMatching s e p).isEmpty = true
  · rw [reconcile_eq_of_empty s e p hemp] at h
    have h' := Except.ok.inj h
    exact Or.inl ⟨hemp, congrArg Prod.snd h'.symm, congrArg Prod.fst h'.symm⟩
  · rw [Bool.not_eq_true] at hemp
    cases hroots : collectRootIds (findMatching s e p) with
    | error u =>
      simp only [reconcile, hemp, hroots, Bool.false_eq_true, if_false] at h
      exact absurd h (by simp)
    | ok roots =>
      cases hfp : findPrimaries s roots with
      | nil =>
        simp only [reconcile, hemp, hroots, hfp, Bool.false_eq_true, if_false] at h
        exact absurd h (by simp)
      | cons root rest =>
        refine Or.inr ⟨roots, root, rest, hemp, rfl, hfp, ?_⟩
        cases hac : attachCond (findGroup (mergedStore s root rest) root.id) e p with
        | true =>
          rw [reconcile_eq_of_attach s e p roots root rest (mergedStore s root rest)
            (findGroup (mergedStore s root rest) root.id) hemp hroots hfp rfl rfl hac] at h
          have h' := Except.ok.inj h
          exact Or.inl ⟨rfl, congrArg Prod.snd h'.symm, congrArg Prod.fst h'.symm⟩
        | false =>
          rw [reconcile_eq_of_noattach s e p roots root rest (mergedStore s root rest)
            (findGroup (mergedStore s root rest) root.id) hemp hroots hfp rfl rfl hac] at h
          have h' := Except.ok.inj h
          exact Or.inr ⟨rfl, congrArg Prod.snd h'.symm, congrArg Prod.fst h'.symm⟩

/-- The survivor is a fixed point of the merge loop. -/
theorem merged_root_eq {s : Store} {e p : Option String} {roots : List Nat}
    {root : Contact} {rest : List Contact} (hwf : WF s)
    (hroots : collectRootIds (findMatching s e p) = .ok roots)
    (hfp : findPrimaries s roots = root :: rest) :
    demoteAllStep root.id (rest.map (·.id)) root = root := by
  obtain ⟨hrmem, hrlive, hrprim, hrnone, hyfacts, hrootid, hidrest⟩ :=
    fp_facts hwf hroots hfp
  rcases merged_classify hwf hroots hfp root hrmem with
    ⟨h1, -⟩ | ⟨⟨y, hy, hylink, -⟩, -⟩ | ⟨-, -, heq⟩
  · exact absurd (List.mem_map_of_mem (·.id) h1) (fun hm => hrootid root.id hm rfl)
  · rw [hrnone] at hylink
    exact Option.noConfusion hylink
  · exact heq

/-- The match condition only reads email and phone. -/
theorem matchCondition_congr {e p : Option String} {c d : Contact}
    (he : c.email = d.email) (hp : c.phoneNumber = d.phoneNumber) :
    matchCondition e p c = matchCondition e p d := by
  rw [matchCondition, matchCondition, matchesInput, matchesInput, he, hp]

/-- Every matched row resolves, after the merge, to the survivor's id. -/
theorem matched_rootIdOf {s : Store} {e p : Option String} {roots : List Nat}
    {root : Contact} {rest : List Contact} (hwf : WF s)
    (hroots : collectRootIds (findMatching s e p) = .ok roots)
    (hfp : findPrimaries s roots = root :: rest)
    {c : Contact} (hc : c ∈ findMatching s e p) :
    rootIdOf (demoteAllStep root.id (rest.map (·.id)) c) = .ok root.id := by
  obtain ⟨hrmem, hrlive, hrprim, hrnone, hyfacts, hrootid, hidrest⟩ :=
    fp_facts hwf hroots hfp
  obtain ⟨hcmem, hclive, -⟩ := findMatching_mem.mp hc
  rcases matched_root_or_linked hwf hroots hfp hc with hid | hlink
  · have hcid : c.id = root.id := by
      rw [← (demoteAllStep_fields root.id (rest.map (·.id)) c).1, hid]
    rw [wf_id_inj hwf hcmem hrmem hcid]
    rw [merged_root_eq hwf hroots hfp]
    exact rootIdOf_primary hrprim
  · have hsec : (demoteAllStep root.id (rest.map (·.id)) c).linkPrecedence =
        .secondary := by
      rcases merged_classify hwf hroots hfp c hcmem with
        ⟨-, heq⟩ | ⟨⟨y, hy, hylink, -⟩, heq⟩ | ⟨-, -, heq⟩
      · rw [heq]
      · rw [heq]
        simp only
        cases hcp : c.linkPrecedence with
        | secondary => rfl
        | primary =>
          rw [hwf.primNone c hcmem hclive hcp] at hylink
          exact Option.noConfusion hylink
      · rw [heq] at hlink ⊢
        cases hcp : c.linkPrecedence with
        | secondary => rfl
        | primary =>
          rw [hwf.primNone c hcmem hclive hcp] at hlink
          exact Option.noConfusion hlink
    exact rootIdOf_secondary hsec hlink

/-- An empty sort result means an empty input. -/
theorem sortContacts_eq_nil {xs : List Contact} (h : sortContacts xs = []) :
    xs = [] := by
  have hperm := sortContacts_perm xs
  rw [h] at hperm
  exact List.eq_nil_of_length_eq_zero (hperm.length_eq.symm.trans rfl)

/-- Rows with duplicate-free ids are themselves duplicate-free. -/
theorem rows_nodup_of_ids {rows : List Contact}
    (h : (rows.map (·.id)).Nodup) : rows.Nodup :=
  List.Nodup.of_map (·.id) h

/-- Replay after a primary-creating call: the second call matches exactly
the new row, performs no writes, and rebuilds the same payload. -/
theorem c2_empty_case (s : Store) (e p : Option String)
    (hwf : WF s) (hv : ValidInput e p)
    (hemp : (findMatching s e p).isEmpty = true) :
    reconcile (insertRow s e p none .primary).2 e p =
      .ok (buildResponse (insertRow s e p none .primary).1 [],
           (insertRow s e p none .primary).2) := by
  obtain ⟨hv1, hv2, hv3⟩ := hv
  have hnrows : (insertRow s e p none .primary).2.rows =
      s.rows ++ [(insertRow s e p none .primary).1] := rfl
  have hfnil : findMatching s e p = [] := by
    cases hm : findMatching s e p with
    | nil => rfl
    | cons a l =>
      rw [hm] at hemp
      exact absurd hemp (by simp)
  have hnomatch : ∀ c ∈ s.rows, ¬(isLive c && matchCondition e p c) = true :=
    List.filter_eq_nil_iff.mp (sortContacts_eq_nil hfnil)
  have hmn : matchCondition e p (insertRow s e p none .primary).1 = true := by
    refine matchCondition_of_field ?_
    rcases hv3 with hsome | hsome
    · obtain ⟨v, hev⟩ := Option.isSome_iff_exists.mp hsome
      exact Or.inl ⟨v, hev, fun h0 => hv1 (by rw [hev, h0]),
        by rw [show (insertRow s e p none .primary).1.email = e from rfl, hev]⟩
    · obtain ⟨v, hpv⟩ := Option.isSome_iff_exists.mp hsome
      exact Or.inr ⟨v, hpv, fun h0 => hv2 (by rw [hpv, h0]),
        by rw [show (insertRow s e p none .primary).1.phoneNumber = p from rfl, hpv]⟩
  have hmemn : (insertRow s e p none .primary).1 ∈ (insertRow s e p none .primary).2.rows := by
    rw [hnrows]
    exact List.mem_append_right _ (List.mem_singleton.mpr rfl)
  have hne2 : (findMatching (insertRow s e p none .primary).2 e p).isEmpty = false :=
    findMatching_isEmpty_false hmemn rfl hmn
  have hmonly : ∀ y ∈ findMatching (insertRow s e p none .primary).2 e p,
      y = (insertRow s e p none .primary).1 := by
    intro y hy
    obtain ⟨hymem, hylive, hym⟩ := findMatching_mem.mp hy
    rw [hnrows] at hymem
    rcases List.mem_append.mp hymem with hyold | hynew
    · exact absurd (by rw [hylive, hym]; rfl) (hnomatch y hyold)
    · simpa using hynew
  have hrid : ∀ y ∈ findMatching (insertRow s e p none .primary).2 e p,
      rootIdOf y = .ok s.nextId := by
    intro y hy
    rw [hmonly y hy]
    exact rootIdOf_primary rfl
  obtain ⟨roots2, hok2, hall2, hlen2⟩ := collectRootIds_const hrid
  have hmemid : s.nextId ∈ roots2 := by
    obtain ⟨y, hy⟩ := List.isEmpty_eq_false_iff_exists_mem.mp hne2
    cases hr2 : roots2 with
    | nil =>
      rw [hr2] at hlen2
      have : findMatching (insertRow s e p none .primary).2 e p = [] :=
        List.eq_nil_of_length_eq_zero hlen2.symm
      rw [this] at hy
      exact absurd hy (List.not_mem_nil y)
    | cons i is =>
      have : i = s.nextId := hall2 i (by rw [hr2]; exact List.mem_cons_self i is)
      rw [← this]
      exact List.mem_cons_self i is
  have hnodup2 : (insertRow s e p none .primary).2.rows.Nodup := by
    refine rows_nodup_of_ids ?_
    rw [hnrows, List.map_append]
    refine List.Nodup.append hwf.nodup (by simp) ?_
    intro a ha hb
    simp only [List.map_cons, List.map_nil, List.mem_singleton] at hb
    obtain ⟨c, hc, hcid⟩ := List.mem_map.mp ha
    rw [hb, show (insertRow s e p none .primary).1.id = s.nextId from rfl] at hcid
    exact absurd hcid (Nat.ne_of_lt (hwf.idLt c hc))
  have hfp2 : findPrimaries (insertRow s e p none .primary).2 roots2 =
      [(insertRow s e p none .primary).1] := by
    show sortContacts _ = _
    have hfil : (insertRow s e p none .primary).2.rows.filter
        (fun c => isLive c && roots2.contains c.id) =
        [(insertRow s e p none .primary).1] := by
      refine filter_eq_singleton hnodup2 hmemn ?_ ?_
      · rw [show isLive (insertRow s e p none .primary).1 = true from rfl]
        rw [show (insertRow s e p none .primary).1.id = s.nextId from rfl]
        rw [nat_contains_of_mem hmemid]
        rfl
      · intro b hb hqb
        rw [Bool.and_eq_true] at hqb
        have hbid : b.id = s.nextId := hall2 b.id (by simpa using hqb.2)
        rw [hnrows] at hb
        rcases List.mem_append.mp hb with hbold | hbnew
        · exact absurd hbid (Nat.ne_of_lt (hwf.idLt b hbold))
        · simpa using hbnew
    rw [hfil]
    rfl
  have hgid : ∀ c ∈ findGroup (insertRow s e p none .primary).2 s.nextId,
      c.id = s.nextId := by
    intro c hc
    obtain ⟨hcmem, hclive, hccond⟩ := findGroup_mem.mp hc
    rw [Bool.or_eq_true] at hccond
    rcases hccond with hcid | hclink
    · simpa using hcid
    · have hclink' : c.linkedId = some s.nextId := by simpa using hclink
      rw [hnrows] at hcmem
      rcases List.mem_append.mp hcmem with hcold | hcnew
      · cases hcp : c.linkPrecedence with
        | primary =>
          rw [hwf.primNone c hcold hclive hcp] at hclink'
          exact absurd hclink' (by simp)
        | secondary =>
          obtain ⟨r, hrmem, hrlink, -, -⟩ := hwf.secLink c hcold hclive hcp
          rw [hrlink] at hclink'
          have : r.id = s.nextId := by simpa using hclink'
          exact absurd this (Nat.ne_of_lt (hwf.idLt r hrmem))
      · rw [List.mem_singleton.mp hcnew] at hclink'
        exact absurd (show (none : Option Nat) = some s.nextId from hclink') (by simp)
  have hdup2 : exactDup (findGroup (insertRow s e p none .primary).2 s.nextId) e p = true := by
    rw [exactDup, List.any_eq_true]
    refine ⟨(insertRow s e p none .primary).1, ?_, ?_⟩
    · rw [findGroup_mem]
      refine ⟨hmemn, rfl, ?_⟩
      rw [Bool.or_eq_true]
      refine Or.inl ?_
      rw [show (insertRow s e p none .primary).1.id = s.nextId from rfl]
      simp
    · rw [show (insertRow s e p none .primary).1.email = e from rfl,
        show (insertRow s e p none .primary).1.phoneNumber = p from rfl]
      rw [Bool.and_eq_true, Bool.or_eq_true, Bool.or_eq_true]
      exact ⟨Or.inr (beq_self_eq_true e), Or.inr (beq_self_eq_true p)⟩
  have hre := reconcile_eq_of_noattach (insertRow s e p none .primary).2 e p roots2
    (insertRow s e p none .primary).1 [] (insertRow s e p none .primary).2
    (findGroup (insertRow s e p none .primary).2 s.nextId)
    hne2 hok2 hfp2 rfl rfl (attachCond_of_dup hdup2)
  rw [hre]
  have hfilnil : (findGroup (insertRow s e p none .primary).2 s.nextId).filter
      (fun c => c.id != (insertRow s e p none .primary).1.id) = [] := by
    rw [List.filter_eq_nil_iff]
    intro c hc
    rw [hgid c hc, show (insertRow s e p none .primary).1.id = s.nextId from rfl]
    simp
  rw [hfilnil]

/-- A reconcile call on a store where every match resolves to one live
root `root` and the attach condition is off reports the existing group
and leaves the store untouched. -/
theorem reconcile_stable (s2 : Store) (e p : Option String) (root : Contact)
    (hne2 : (findMatching s2 e p).isEmpty = false)
    (hrid : ∀ y ∈ findMatching s2 e p, rootIdOf y = .ok root.id)
    (hrootmem : root ∈ s2.rows) (hrootlive : isLive root = true)
    (hnodup2 : s2.rows.Nodup)
    (huniq : ∀ b ∈ s2.rows, isLive b = true → b.id = root.id → b = root)
    (hac2 : attachCond (findGroup s2 root.id) e p = false) :
    reconcile s2 e p =
      .ok (buildResponse root
        ((findGroup s2 root.id).filter (fun c => c.id != root.id)), s2) := by
  obtain ⟨roots2, hok2, hall2, hlen2⟩ := collectRootIds_const hrid
  have hmemid : root.id ∈ roots2 := by
    obtain ⟨y, hy⟩ := List.isEmpty_eq_false_iff_exists_mem.mp hne2
    cases hr2 : roots2 with
    | nil =>
      rw [hr2] at hlen2
      have : findMatching s2 e p = [] := List.eq_nil_of_length_eq_zero hlen2.symm
      rw [this] at hy
      exact absurd hy (List.not_mem_nil y)
    | cons i is =>
      have : i = root.id := hall2 i (by rw [hr2]; exact List.mem_cons_self i is)
      rw [← this]
      exact List.mem_cons_self i is
  have hfp2 : findPrimaries s2 roots2 = [root] := by
    show sortContacts _ = _
    have hfil : s2.rows.filter (fun c => isLive c && roots2.contains c.id) = [root] := by
      refine filter_eq_singleton hnodup2 hrootmem ?_ ?_
      · rw [hrootlive, nat_contains_of_mem hmemid]
        rfl
      · intro b hb hqb
        rw [Bool.and_eq_true] at hqb
        exact huniq b hb hqb.1 (hall2 b.id (by simpa using hqb.2))
    rw [hfil]
    rfl
  exact reconcile_eq_of_noattach s2 e p roots2 root [] s2 (findGroup s2 root.id)
    hne2 hok2 hfp2 rfl rfl hac2

/-- Replay context for the merge branch: the match set of the merged
store resolves entirely to the survivor. -/
theorem merged_match_rootIdOf {s : Store} {e p : Option String} {roots : List Nat}
    {root : Contact} {rest : List Contact} (hwf : WF s)
    (hroots : collectRootIds (findMatching s e p) = .ok roots)
    (hfp : findPrimaries s roots = root :: rest) :
    ∀ y ∈ findMatching (mergedStore s root rest) e p, rootIdOf y = .ok root.id := by
  intro y hy
  obtain ⟨hymem, hylive, hym⟩ := findMatching_mem.mp hy
  rw [mergedStore_rows] at hymem
  obtain ⟨c, hc, hcy⟩ := List.mem_map.mp hymem
  have hfields := demoteAllStep_fields root.id (rest.map (·.id)) c
  have hclive : isLive c = true := by
    rw [← demoteAllStep_isLive root.id (rest.map (·.id)) c, hcy]
    exact hylive
  have hcm : matchCondition e p c = true := by
    rw [← hym, ← hcy]
    exact (matchCondition_congr hfields.2.1 hfields.2.2.1).symm
  rw [← hcy]
  exact matched_rootIdOf hwf hroots hfp (findMatching_mem.mpr ⟨hc, hclive, hcm⟩)

/-- Uniqueness of the survivor id among the live merged rows. -/
theorem merged_uniq_root {s : Store} {e p : Option String} {roots : List Nat}
    {root : Contact} {rest : List Contact} (hwf : WF s)
    (hroots : collectRootIds (findMatching s e p) = .ok roots)
    (hfp : findPrimaries s roots = root :: rest) :
    ∀ b ∈ (mergedStore s root rest).rows, isLive b = true → b.id = root.id → b = root := by
  intro b hb hblive hbid
  rw [mergedStore_rows] at hb
  obtain ⟨c, hc, hcb⟩ := List.mem_map.mp hb
  have hcid : c.id = root.id := by
    rw [← (demoteAllStep_fields root.id (rest.map (·.id)) c).1, hcb, hbid]
  have hrmem : root ∈ s.rows := (fp_facts hwf hroots hfp).1
  rw [← hcb, wf_id_inj hwf hc hrmem hcid]
  exact merged_root_eq hwf hroots hfp

/-- Replay after a merge without insert: same payload, untouched store. -/
theorem c2_merge_noattach_case (s : Store) (e p : Option String) (roots : List Nat)
    (root : Contact) (rest : List Contact) (hwf : WF s)
    (hne : (findMatching s e p).isEmpty = false)
    (hroots : collectRootIds (findMatching s e p) = .ok roots)
    (hfp : findPrimaries s roots = root :: rest)
    (hac1 : attachCond (findGroup (mergedStore s root rest) root.id) e p = false) :
    reconcile (mergedStore s root rest) e p =
      .ok (buildResponse root
        ((findGroup (mergedStore s root rest) root.id).filter
          (fun c => c.id != root.id)), mergedStore s root rest) := by
  obtain ⟨hrmem, hrlive, hrprim, hrnone, hyfacts, hrootid, hidrest⟩ :=
    fp_facts hwf hroots hfp
  have hrootmem2 : root ∈ (mergedStore s root rest).rows := by
    have hmm : demoteAllStep root.id (rest.map (·.id)) root ∈
        List.map (demoteAllStep root.id (rest.map (·.id))) s.rows :=
      List.mem_map_of_mem _ hrmem
    rw [merged_root_eq hwf hroots hfp] at hmm
    rw [mergedStore_rows]
    exact hmm
  have hne2 : (findMatching (mergedStore s root rest) e p).isEmpty = false := by
    obtain ⟨c, hc⟩ := List.isEmpty_eq_false_iff_exists_mem.mp hne
    obtain ⟨hcmem, hclive, hcm⟩ := findMatching_mem.mp hc
    have hfields := demoteAllStep_fields root.id (rest.map (·.id)) c
    refine findMatching_isEmpty_false (c := demoteAllStep root.id (rest.map (·.id)) c)
      ?_ ?_ ?_
    · rw [mergedStore_rows]
      exact List.mem_map_of_mem _ hcmem
    · rw [demoteAllStep_isLive]
      exact hclive
    · rw [matchCondition_congr hfields.2.1 hfields.2.2.1]
      exact hcm
  refine reconcile_stable (mergedStore s root rest) e p root hne2
    (merged_match_rootIdOf hwf hroots hfp) hrootmem2 hrlive ?_
    (merged_uniq_root hwf hroots hfp) hac1
  exact rows_nodup_of_ids (by rw [mergedStore_ids]; exact hwf.nodup)

/-- A strictly later row never precedes an earlier one. -/
theorem contactLe_false {a b : Contact} (hc : b.createdAt ≤ a.createdAt)
    (hne : a.createdAt = b.createdAt → b.id < a.id) : contactLe a b = false := by
  simp only [contactLe, Bool.or_eq_false_iff, Bool.and_eq_false_iff,
    decide_eq_false_iff_not, Nat.not_lt, beq_eq_false_iff_ne]
  refine ⟨hc, ?_⟩
  by_cases heq : a.createdAt = b.createdAt
  · refine Or.inr ?_
    have := hne heq
    omega
  · exact Or.inl heq

/-- Any live merged row matching the input resolves to the survivor. -/
theorem merged_row_rootIdOf {s : Store} {e p : Option String} {roots : List Nat}
    {root : Contact} {rest : List Contact} (hwf : WF s)
    (hroots : collectRootIds (findMatching s e p) = .ok roots)
    (hfp : findPrimaries s roots = root :: rest) :
    ∀ y ∈ (mergedStore s root rest).rows, isLive y = true →
      matchCondition e p y = true → rootIdOf y = .ok root.id := by
  intro y hy hylive hym
  rw [mergedStore_rows] at hy
  obtain ⟨c, hc, hcy⟩ := List.mem_map.mp hy
  have hfields := demoteAllStep_fields root.id (rest.map (·.id)) c
  have hclive : isLive c = true := by
    rw [← demoteAllStep_isLive root.id (rest.map (·.id)) c, hcy]
    exact hylive
  have hcm : matchCondition e p c = true := by
    rw [← hym, ← hcy]
    exact (matchCondition_congr hfields.2.1 hfields.2.2.1).symm
  rw [← hcy]
  exact matched_rootIdOf hwf hroots hfp (findMatching_mem.mpr ⟨hc, hclive, hcm⟩)

/-- The survivor survives into the merged rows. -/
theorem root_mem_merged {s : Store} {e p : Option String} {roots : List Nat}
    {root : Contact} {rest : List Contact} (hwf : WF s)
    (hroots : collectRootIds (findMatching s e p) = .ok roots)
    (hfp : findPrimaries s roots = root :: rest) :
    root ∈ (mergedStore s root rest).rows := by
  have hmm : demoteAllStep root.id (rest.map (·.id)) root ∈
      List.map (demoteAllStep root.id (rest.map (·.id))) s.rows :=
    List.mem_map_of_mem _ (fp_facts hwf hroots hfp).1
  rw [merged_root_eq hwf hroots hfp] at hmm
  rw [mergedStore_rows]
  exact hmm

/-- Replay after a merge with insert: the new secondary makes the second
call an exact duplicate, so it reports the group plus the new row and
changes nothing. -/
theorem c2_merge_attach_case (s : Store) (e p : Option String) (roots : List Nat)
    (root : Contact) (rest : List Contact) (hwf : WF s) (hv : ValidInput e p)
    (hroots : collectRootIds (findMatching s e p) = .ok roots)
    (hfp : findPrimaries s roots = root :: rest) :
    reconcile (insertRow (mergedStore s root rest) e p (some root.id) .secondary).2 e p =
      .ok (buildResponse root
        ((findGroup (mergedStore s root rest) root.id ++
          [(insertRow (mergedStore s root rest) e p (some root.id) .secondary).1]).filter
            (fun c => c.id != root.id)),
        (insertRow (mergedStore s root rest) e p (some root.id) .secondary).2) := by
  obtain ⟨hv1, hv2, hv3⟩ := hv
  obtain ⟨hrmem, hrlive, hrprim, hrnone, hyfacts, hrootid, hidrest⟩ :=
    fp_facts hwf hroots hfp
  have hnrows : (insertRow (mergedStore s root rest) e p (some root.id) .secondary).2.rows =
      (mergedStore s root rest).rows ++
        [(insertRow (mergedStore s root rest) e p (some root.id) .secondary).1] := rfl
  have hnid : (insertRow (mergedStore s root rest) e p (some root.id) .secondary).1.id =
      s.nextId := rfl
  have hnlink : (insertRow (mergedStore s root rest) e p (some root.id) .secondary).1.linkedId =
      some root.id := rfl
  have hmemn : (insertRow (mergedStore s root rest) e p (some root.id) .secondary).1 ∈
      (insertRow (mergedStore s root rest) e p (some root.id) .secondary).2.rows := by
    rw [hnrows]
    exact List.mem_append_right _ (List.mem_singleton.mpr rfl)
  have hg2 : findGroup (insertRow (mergedStore s root rest) e p (some root.id) .secondary).2
      root.id = findGroup (mergedStore s root rest) root.id ++
        [(insertRow (mergedStore s root rest) e p (some root.id) .secondary).1] := by
    show sortContacts _ = _
    rw [hnrows, List.filter_append]
    have hlv : isLive
        (insertRow (mergedStore s root rest) e p (some root.id) .secondary).1 = true := rfl
    have hqn : (isLive (insertRow (mergedStore s root rest) e p (some root.id) .secondary).1 &&
        ((insertRow (mergedStore s root rest) e p (some root.id) .secondary).1.id == root.id ||
          (insertRow (mergedStore s root rest) e p
            (some root.id) .secondary).1.linkedId == some root.id)) = true := by
      rw [hlv, hnlink]
      simp
    rw [List.filter_singleton]
    simp only [hqn, cond_true]
    rw [sortContacts_append_max]
    · rfl
    · intro x hx
      have hxmem : x ∈ (mergedStore s root rest).rows := (List.mem_filter.mp hx).1
      rw [mergedStore_rows] at hxmem
      obtain ⟨c, hc, hcx⟩ := List.mem_map.mp hxmem
      have hfields := demoteAllStep_fields root.id (rest.map (·.id)) c
      have hcr : (insertRow (mergedStore s root rest) e p
          (some root.id) .secondary).1.createdAt = s.now := rfl
      refine contactLe_false ?_ ?_
      · rw [← hcx, hfields.2.2.2.1, hcr]
        exact hwf.createdLe c hc
      · intro _
        rw [← hcx, hfields.1, hnid]
        exact hwf.idLt c hc
  have hmn : matchCondition e p
      ((insertRow (mergedStore s root rest) e p (some root.id) .secondary).1) = true := by
    refine matchCondition_of_field ?_
    rcases hv3 with hsome | hsome
    · obtain ⟨v, hev⟩ := Option.isSome_iff_exists.mp hsome
      exact Or.inl ⟨v, hev, fun h0 => hv1 (by rw [hev, h0]),
        by rw [show (insertRow (mergedStore s root rest) e p (some root.id)
          .secondary).1.email = e from rfl, hev]⟩
    · obtain ⟨v, hpv⟩ := Option.isSome_iff_exists.mp hsome
      exact Or.inr ⟨v, hpv, fun h0 => hv2 (by rw [hpv, h0]),
        by rw [show (insertRow (mergedStore s root rest) e p (some root.id)
          .secondary).1.phoneNumber = p from rfl, hpv]⟩
  have hne2 : (findMatching (insertRow (mergedStore s root rest) e p (some root.id)
      .secondary).2 e p).isEmpty = false :=
    findMatching_isEmpty_false hmemn rfl hmn
  have hrid2 : ∀ y ∈ findMatching (insertRow (mergedStore s root rest) e p (some root.id)
      .secondary).2 e p, rootIdOf y = .ok root.id := by
    intro y hy
    obtain ⟨hymem, hylive, hym⟩ := findMatching_mem.mp hy
    rw [hnrows] at hymem
    rcases List.mem_append.mp hymem with hyold | hynew
    · exact merged_row_rootIdOf hwf hroots hfp y hyold hylive hym
    · rw [List.mem_singleton.mp hynew]
      exact rootIdOf_secondary rfl hnlink
  have hrootmem2 : root ∈ (insertRow (mergedStore s root rest) e p (some root.id)
      .secondary).2.rows := by
    rw [hnrows]
    exact List.mem_append_left _ (root_mem_merged hwf hroots hfp)
  have hnodup2 : (insertRow (mergedStore s root rest) e p (some root.id)
      .secondary).2.rows.Nodup := by
    refine rows_nodup_of_ids ?_
    rw [hnrows, List.map_append]
    refine List.Nodup.append (by rw [mergedStore_ids]; exact hwf.nodup) (by simp) ?_
    intro a ha hb
    simp only [List.map_cons, List.map_nil, List.mem_singleton] at hb
    rw [mergedStore_ids] at ha
    obtain ⟨c, hc, hcid⟩ := List.mem_map.mp ha
    rw [hb, hnid] at hcid
    exact absurd hcid (Nat.ne_of_lt (hwf.idLt c hc))
  have huniq2 : ∀ b ∈ (insertRow (mergedStore s root rest) e p (some root.id)
      .secondary).2.rows, isLive b = true → b.id = root.id → b = root := by
    intro b hb hblive hbid
    rw [hnrows] at hb
    rcases List.mem_append.mp hb with hbold | hbnew
    · exact merged_uniq_root hwf hroots hfp b hbold hblive hbid
    · rw [List.mem_singleton.mp hbnew, hnid] at hbid
      exact absurd hbid.symm (Nat.ne_of_lt (hwf.idLt root hrmem))
  have hdup2 : exactDup (findGroup (insertRow (mergedStore s root rest) e p (some root.id)
      .secondary).2 root.id) e p = true := by
    rw [exactDup, List.any_eq_true]
    refine ⟨(insertRow (mergedStore s root rest) e p (some root.id) .secondary).1, ?_, ?_⟩
    · rw [hg2]
      exact List.mem_append_right _ (List.mem_singleton.mpr rfl)
    · rw [show (insertRow (mergedStore s root rest) e p (some root.id)
        .secondary).1.email = e from rfl,
        show (insertRow (mergedStore s root rest) e p (some root.id)
        .secondary).1.phoneNumber = p from rfl]
      rw [Bool.and_eq_true, Bool.or_eq_true, Bool.or_eq_true]
      exact ⟨Or.inr (beq_self_eq_true e), Or.inr (beq_self_eq_true p)⟩
  have hre := reconcile_stable (insertRow (mergedStore s root rest) e p (some root.id)
      .secondary).2 e p root hne2 hrid2 hrootmem2 hrlive hnodup2 huniq2
    (attachCond_of_dup hdup2)
  rw [hre, hg2]

/-! ## C2: idempotent replay -/

/-- C2 amended: for a validated input and a store satisfying the
invariants, replaying a successful reconcile call changes nothing: the
second call returns the same payload and leaves the store exactly as the
first call left it. -/
theorem c2_theorem (s : Store) (e p : Option String) (r1 : IdentifyContact)
    (s1 : Store) (hwf : WF s) (hv : ValidInput e p)
    (h1 : reconcile s e p = .ok (r1, s1)) :
    reconcile s1 e p = .ok (r1, s1) := by
  rcases reconcile_ok_cases h1 with ⟨hemp, hs1, hr1⟩ |
    ⟨roots, root, rest, hne, hroots, hfp, ⟨hac1, hs1, hr1⟩ | ⟨hac1, hs1, hr1⟩⟩
  · rw [hs1, hr1]
    exact c2_empty_case s e p hwf hv hemp
  · rw [hs1, hr1]
    exact c2_merge_attach_case s e p roots root rest hwf hv hroots hfp
  · rw [hs1, hr1]
    exact c2_merge_noattach_case s e p roots root rest hwf hne hroots hfp hac1

/-- C2 counterexample: on a store containing a row whose `createdAt` lies
in the future of the transaction clock, the first call appends the new
secondary at the end of the in-memory group, while the replay re-reads
the group in `createdAt` order and reports the two secondaries swapped:
the stores agree but the payloads differ, contradicting the claim for
arbitrary store states. -/
theorem c2_counterexample :
    reconcile c2xStore (some "c") (some "2") = .ok (c2xResp1, c2xStoreAfter) ∧
    reconcile c2xStoreAfter (some "c") (some "2") = .ok (c2xResp2, c2xStoreAfter) ∧
    c2xResp2 ≠ c2xResp1 := by
  refine ⟨rfl, rfl, by decide⟩

/-- C2 witness: replaying the creating call on the concrete store is a
no-op returning the same payload. -/
theorem c2_witness :
    reconcile { rows := [c2wRow], nextId := 2, now := 0 } (some "a") none =
      .ok ({ primaryContactId := 1, emails := ["a"], phoneNumbers := [],
             secondaryContactIds := [] },
           { rows := [c2wRow], nextId := 2, now := 0 }) :=
  c2_theorem c2wStore (some "a") none
    { primaryContactId := 1, emails := ["a"], phoneNumbers := [],
      secondaryContactIds := [] }
    { rows := [c2wRow], nextId := 2, now := 0 }
    ⟨by decide, by decide, by decide, by decide, by decide, by decide,
     atMostOne_of_unique (by decide)⟩
    (by decide) (by rfl)

/-! ## The sharing relation and its transitive closure -/

/-- Transport an invariant along the closure of the sharing relation. -/
theorem related_invariant {rows : List Contact} {P : Contact → Prop}
    (hstep : ∀ a b, P a → LiveShares rows a b → P b)
    {a b : Contact} (h : Related rows a b) (ha : P a) : P b := by
  induction h with
  | refl => exact ha
  | tail hab hbc ih => exact hstep _ _ ih hbc

/-- The sharing relation only reads email and phone. -/
theorem sharesB_congr {a b a' b' : Contact}
    (hae : a.email = a'.email) (hap : a.phoneNumber = a'.phoneNumber)
    (hbe : b.email = b'.email) (hbp : b.phoneNumber = b'.phoneNumber) :
    sharesB a b = sharesB a' b' := by
  rw [sharesB, sharesB, hae, hap, hbe, hbp]

/-- The sharing relation is symmetric. -/
theorem sharesB_symm {a b : Contact} (h : sharesB a b = true) :
    sharesB b a = true := by
  rw [sharesB, Bool.or_eq_true, Bool.and_eq_true, Bool.and_eq_true] at h ⊢
  rcases h with ⟨hs, he⟩ | ⟨hs, hp⟩
  · refine Or.inl ⟨?_, ?_⟩
    · rw [← eq_of_beq he]
      exact hs
    · rw [eq_of_beq he]
      exact beq_self_eq_true _
  · refine Or.inr ⟨?_, ?_⟩
    · rw [← eq_of_beq hp]
      exact hs
    · rw [eq_of_beq hp]
      exact beq_self_eq_true _

/-- One live sharing step is symmetric. -/
theorem liveShares_symm {rows : List Contact} {a b : Contact}
    (h : LiveShares rows a b) : LiveShares rows b a :=
  ⟨h.2.1, h.1, h.2.2.2.1, h.2.2.1, sharesB_symm h.2.2.2.2⟩

/-- Relatedness is symmetric. -/
theorem related_symm {rows : List Contact} {a b : Contact}
    (h : Related rows a b) : Related rows b a := by
  induction h with
  | refl => exact Relation.ReflTransGen.refl
  | tail hab hbc ih => exact Relation.ReflTransGen.head (liveShares_symm hbc) ih

/-- Pull relatedness through a row-wise transformation that keeps email,
phone and deletion status. -/
theorem related_map {rows : List Contact} {φ : Contact → Contact}
    (hf : ∀ c, (φ c).email = c.email ∧ (φ c).phoneNumber = c.phoneNumber ∧
      (φ c).deletedAt = c.deletedAt)
    {x : Contact} {y' : Contact} (hx : x ∈ rows)
    (h : Related (rows.map φ) (φ x) y') :
    ∃ y ∈ rows, φ y = y' ∧ Related rows x y := by
  have hlive : ∀ c, isLive (φ c) = isLive c := by
    intro c
    rw [isLive, isLive, (hf c).2.2]
  induction h with
  | refl => exact ⟨x, hx, rfl, Relation.ReflTransGen.refl⟩
  | tail hab hbc ih =>
    obtain ⟨b, hb, hφb, hrel⟩ := ih
    obtain ⟨hbmem', hcmem', hblive', hclive', hshare'⟩ := hbc
    obtain ⟨c, hc, hφc⟩ := List.mem_map.mp hcmem'
    refine ⟨c, hc, hφc, hrel.tail ⟨hb, hc, ?_, ?_, ?_⟩⟩
    · rw [← hlive b, hφb]
      exact hblive'
    · rw [← hlive c, hφc]
      exact hclive'
    · rw [← hφb, ← hφc] at hshare'
      rw [← sharesB_congr (hf b).1 (hf b).2.1 (hf c).1 (hf c).2.1]
      exact hshare'

/-- Shortcut lemma: a path through an appended row whose neighbours are
pairwise related projects to a path in the original rows. -/
theorem related_append {rows : List Contact} {n : Contact}
    (hn : n ∉ rows)
    (hpair : ∀ a ∈ rows, isLive a = true → sharesB a n = true →
      ∀ b ∈ rows, isLive b = true → sharesB b n = true → sharesB a b = true)
    {x y : Contact} (hx : x ∈ rows) (hy : y ∈ rows)
    (h : Related (rows ++ [n]) x y) : Related rows x y := by
  have hP := related_invariant
    (P := fun z => (z ∈ rows ∧ Related rows x z) ∨
      (z = n ∧ ∃ a ∈ rows, isLive a = true ∧ sharesB a n = true ∧ Related rows x a))
    ?_ h (Or.inl ⟨hx, Relation.ReflTransGen.refl⟩)
  · rcases hP with ⟨-, hrel⟩ | ⟨hzn, -⟩
    · exact hrel
    · rw [hzn] at hy
      exact absurd hy hn
  · intro a b hPa hstep
    obtain ⟨hamem, hbmem, halive, hblive, hshare⟩ := hstep
    have hbcases : b ∈ rows ∨ b = n := by
      rcases List.mem_append.mp hbmem with h1 | h1
      · exact Or.inl h1
      · exact Or.inr (List.mem_singleton.mp h1)
    rcases hPa with ⟨hart, hrel⟩ | ⟨han, a0, ha0, ha0live, ha0share, ha0rel⟩
    · rcases hbcases with hbr | hbn
      · exact Or.inl ⟨hbr, hrel.tail ⟨hart, hbr, halive, hblive, hshare⟩⟩
      · refine Or.inr ⟨hbn, a, hart, halive, ?_, hrel⟩
        rw [← hbn]
        exact hshare
    · rcases hbcases with hbr | hbn
      · have hshare' : sharesB n b = true := by
          rw [← han]
          exact hshare
        have hbshare : sharesB b n = true := sharesB_symm hshare'
        have hshare0 : sharesB a0 b = true :=
          hpair a0 ha0 ha0live ha0share b hbr hblive hbshare
        exact Or.inl ⟨hbr, ha0rel.tail ⟨ha0, hbr, ha0live, hblive, hshare0⟩⟩
      · exact Or.inr ⟨hbn, a0, ha0, ha0live, ha0share, ha0rel⟩

/-- A row with no live neighbours is related only to itself. -/
theorem related_isolated {rows : List Contact} {n : Contact}
    (hiso : ∀ b ∈ rows, isLive b = true → sharesB n b = true → b = n)
    {y : Contact} (h : Related rows n y) : y = n := by
  refine related_invariant (P := fun z => z = n) ?_ h rfl
  intro a b hPa hstep
  subst hPa
  exact hiso b hstep.2.1 hstep.2.2.2.1 hstep.2.2.2.2

/-- A merged row that is live and primary was already primary and is
untouched by the loop. -/
theorem merged_primary_back {s : Store} {e p : Option String} {roots : List Nat}
    {root : Contact} {rest : List Contact} (hwf : WF s)
    (hroots : collectRootIds (findMatching s e p) = .ok roots)
    (hfp : findPrimaries s roots = root :: rest) :
    ∀ c ∈ s.rows, isLive c = true →
      (demoteAllStep root.id (rest.map (·.id)) c).linkPrecedence = .primary →
      demoteAllStep root.id (rest.map (·.id)) c = c ∧
        c.linkPrecedence = .primary := by
  intro c hc hclive hp
  rcases merged_classify hwf hroots hfp c hc with
    ⟨-, heq⟩ | ⟨⟨y, hy, hylink, -⟩, heq⟩ | ⟨-, -, heq⟩
  · rw [heq] at hp
    exact absurd hp (by simp)
  · rw [heq] at hp
    have hcp : c.linkPrecedence = .primary := hp
    rw [hwf.primNone c hc hclive hcp] at hylink
    exact Option.noConfusion hylink
  · rw [heq] at hp
    exact ⟨heq, hp⟩

/-- The merge branch preserves the single-primary-per-class invariant. -/
theorem amop_merged {s : Store} {e p : Option String} {roots : List Nat}
    {root : Contact} {rest : List Contact} (hwf : WF s)
    (hroots : collectRootIds (findMatching s e p) = .ok roots)
    (hfp : findPrimaries s roots = root :: rest) :
    AtMostOnePrimary (mergedStore s root rest).rows := by
  intro p' q' hp' hq' lp' lq' pp' pq' hrel
  rw [mergedStore_rows] at hp' hq' hrel
  obtain ⟨pc, hpc, hpφ⟩ := List.mem_map.mp hp'
  obtain ⟨qc, hqc, hqφ⟩ := List.mem_map.mp hq'
  have hφfields : ∀ c : Contact,
      (demoteAllStep root.id (rest.map (·.id)) c).email = c.email ∧
      (demoteAllStep root.id (rest.map (·.id)) c).phoneNumber = c.phoneNumber ∧
      (demoteAllStep root.id (rest.map (·.id)) c).deletedAt = c.deletedAt :=
    fun c => ⟨(demoteAllStep_fields _ _ c).2.1, (demoteAllStep_fields _ _ c).2.2.1,
      (demoteAllStep_fields _ _ c).2.2.2.2⟩
  have hpclive : isLive pc = true := by
    rw [← demoteAllStep_isLive root.id (rest.map (·.id)) pc, hpφ]
    exact lp'
  have hqclive : isLive qc = true := by
    rw [← demoteAllStep_isLive root.id (rest.map (·.id)) qc, hqφ]
    exact lq'
  have hpp := merged_primary_back hwf hroots hfp pc hpc hpclive (by rw [hpφ]; exact pp')
  have hqq := merged_primary_back hwf hroots hfp qc hqc hqclive (by rw [hqφ]; exact pq')
  have hrel' : Related (s.rows.map (demoteAllStep root.id (rest.map (·.id))))
      (demoteAllStep root.id (rest.map (·.id)) pc) q' := by
    rw [hpφ]
    exact hrel
  obtain ⟨y, hy, hyφ, hrel0⟩ := related_map hφfields hpc hrel'
  have hyq : y = qc := by
    refine wf_id_inj hwf hy hqc ?_
    have h1 : (demoteAllStep root.id (rest.map (·.id)) y).id = y.id :=
      (demoteAllStep_fields _ _ y).1
    have h2 : (demoteAllStep root.id (rest.map (·.id)) qc).id = qc.id :=
      (demoteAllStep_fields _ _ qc).1
    rw [← h1, hyφ, ← hqφ, h2]
  rw [hyq] at hrel0
  have hpq : pc = qc := hwf.amop pc qc hpc hqc hpclive hqclive hpp.2 hqq.2 hrel0
  rw [← hpφ, ← hqφ, hpq]

/-- The attach branch preserves the single-primary-per-class invariant:
the inserted secondary carries a fresh email or a fresh phone, so its
neighbours already share the other field pairwise. -/
theorem amop_attach {s : Store} {e p : Option String} {roots : List Nat}
    {root : Contact} {rest : List Contact} (hwf : WF s) (hv : ValidInput e p)
    (hroots : collectRootIds (findMatching s e p) = .ok roots)
    (hfp : findPrimaries s roots = root :: rest)
    (hac : attachCond (findGroup (mergedStore s root rest) root.id) e p = true) :
    AtMostOnePrimary
      (insertRow (mergedStore s root rest) e p (some root.id) .secondary).2.rows := by
  obtain ⟨hv1, hv2, hv3⟩ := hv
  have hnmem : (insertRow (mergedStore s root rest) e p (some root.id) .secondary).1 ∉
      (mergedStore s root rest).rows := by
    intro hmem
    have hidmem := List.mem_map_of_mem (·.id) hmem
    rw [mergedStore_ids] at hidmem
    obtain ⟨c, hc, hcid⟩ := List.mem_map.mp hidmem
    have hcid' : c.id = s.nextId := hcid
    exact absurd hcid' (Nat.ne_of_lt (hwf.idLt c hc))
  have hnew : (hasNewEmail (findGroup (mergedStore s root rest) root.id) e ||
      hasNewPhone (findGroup (mergedStore s root rest) root.id) p) = true := by
    rw [attachCond, Bool.and_eq_true] at hac
    exact hac.1
  have hpair : ∀ a ∈ (mergedStore s root rest).rows, isLive a = true →
      sharesB a (insertRow (mergedStore s root rest) e p (some root.id) .secondary).1 = true →
      ∀ b ∈ (mergedStore s root rest).rows, isLive b = true →
      sharesB b (insertRow (mergedStore s root rest) e p (some root.id) .secondary).1 = true →
      sharesB a b = true := by
    have hfieldof : ∀ a ∈ (mergedStore s root rest).rows, isLive a = true →
        ∃ c ∈ s.rows, isLive c = true ∧ a.email = c.email ∧
          a.phoneNumber = c.phoneNumber := by
      intro a ha halive
      rw [mergedStore_rows] at ha
      obtain ⟨c, hc, hcφ⟩ := List.mem_map.mp ha
      have hfl := demoteAllStep_fields root.id (rest.map (·.id)) c
      refine ⟨c, hc, ?_, by rw [← hcφ, hfl.2.1], by rw [← hcφ, hfl.2.2.1]⟩
      rw [← demoteAllStep_isLive root.id (rest.map (·.id)) c, hcφ]
      exact halive
    rw [Bool.or_eq_true] at hnew
    rcases hnew with hne | hnp
    · cases he : e with
      | none => rw [he, hasNewEmail] at hne; exact absurd hne (by simp)
      | some v =>
        have hvne : v ≠ "" := fun h0 => hv1 (by rw [he, h0])
        rw [he] at hne
        have hfresh := fresh_email hwf hroots hfp he hvne (by rw [he]; exact hne)
        have hphone : ∀ a ∈ (mergedStore s root rest).rows, isLive a = true →
            sharesB a (insertRow (mergedStore s root rest) (some v) p
              (some root.id) .secondary).1 = true →
            a.phoneNumber = p ∧ a.phoneNumber.isSome = true := by
          intro a ha halive hsh
          obtain ⟨c, hc, hclive, hae, hap⟩ := hfieldof a ha halive
          rw [sharesB, Bool.or_eq_true, Bool.and_eq_true, Bool.and_eq_true] at hsh
          rcases hsh with ⟨hs1, hs2⟩ | ⟨hs1, hs2⟩
          · have hav : a.email = some v := (eq_of_beq hs2).trans rfl
            rw [hae] at hav
            exact absurd hav (hfresh c hc hclive)
          · exact ⟨(eq_of_beq hs2).trans rfl, hs1⟩
        intro a ha halive hsa b hb hblive hsb
        obtain ⟨hap, hasome⟩ := hphone a ha halive hsa
        obtain ⟨hbp, -⟩ := hphone b hb hblive hsb
        rw [sharesB, Bool.or_eq_true]
        refine Or.inr ?_
        rw [Bool.and_eq_true]
        exact ⟨hasome, by rw [hap, hbp]; exact beq_self_eq_true p⟩
    · cases hp : p with
      | none => rw [hp, hasNewPhone] at hnp; exact absurd hnp (by simp)
      | some v =>
        have hvne : v ≠ "" := fun h0 => hv2 (by rw [hp, h0])
        rw [hp] at hnp
        have hfresh := fresh_phone hwf hroots hfp hp hvne (by rw [hp]; exact hnp)
        have hemail : ∀ a ∈ (mergedStore s root rest).rows, isLive a = true →
            sharesB a (insertRow (mergedStore s root rest) e (some v)
              (some root.id) .secondary).1 = true →
            a.email = e ∧ a.email.isSome = true := by
          intro a ha halive hsh
          obtain ⟨c, hc, hclive, hae, hap⟩ := hfieldof a ha halive
          rw [sharesB, Bool.or_eq_true, Bool.and_eq_true, Bool.and_eq_true] at hsh
          rcases hsh with ⟨hs1, hs2⟩ | ⟨hs1, hs2⟩
          · exact ⟨(eq_of_beq hs2).trans rfl, hs1⟩
          · have hav : a.phoneNumber = some v := (eq_of_beq hs2).trans rfl
            rw [hap] at hav
            exact absurd hav (hfresh c hc hclive)
        intro a ha halive hsa b hb hblive hsb
        obtain ⟨hae, hasome⟩ := hemail a ha halive hsa
        obtain ⟨hbe, -⟩ := hemail b hb hblive hsb
        rw [sharesB, Bool.or_eq_true]
        refine Or.inl ?_
        rw [Bool.and_eq_true]
        exact ⟨hasome, by rw [hae, hbe]; exact beq_self_eq_true e⟩
  intro p' q' hp' hq' lp' lq' pp' pq' hrel
  have hprows : (insertRow (mergedStore s root rest) e p
      (some root.id) .secondary).2.rows = (mergedStore s root rest).rows ++
        [(insertRow (mergedStore s root rest) e p (some root.id) .secondary).1] := rfl
  rw [hprows] at hp' hq' hrel
  have hpn : p' ∈ (mergedStore s root rest).rows := by
    rcases List.mem_append.mp hp' with h | h
    · exact h
    · rw [List.mem_singleton.mp h] at pp'
      have hpc : Precedence.secondary = Precedence.primary := pp'
      exact absurd hpc (by decide)
  have hqn : q' ∈ (mergedStore s root rest).rows := by
    rcases List.mem_append.mp hq' with h | h
    · exact h
    · rw [List.mem_singleton.mp h] at pq'
      have hqc : Precedence.secondary = Precedence.primary := pq'
      exact absurd hqc (by decide)
  exact amop_merged hwf hroots hfp p' q' hpn hqn lp' lq' pp' pq'
    (related_append hnmem hpair hpn hqn hrel)

/-- The empty-match branch preserves the single-primary-per-class
invariant: the freshly inserted primary shares no field with any live
stored row, so it is isolated in the sharing relation. -/
theorem amop_empty {s : Store} {e p : Option String} (hwf : WF s)
    (hv : ValidInput e p)
    (hemp : (findMatching s e p).isEmpty = true) :
    AtMostOnePrimary (insertRow s e p none .primary).2.rows := by
  obtain ⟨hv1, hv2, hv3⟩ := hv
  have hfnil : findMatching s e p = [] := by
    cases hm : findMatching s e p with
    | nil => rfl
    | cons a l => rw [hm] at hemp; exact absurd hemp (by simp)
  have hnomatch : ∀ c ∈ s.rows, ¬(isLive c && matchCondition e p c) = true :=
    List.filter_eq_nil_iff.mp (sortContacts_eq_nil hfnil)
  have htr : (truthy e || truthy p) = true := by
    rcases hv3 with hsome | hsome
    · obtain ⟨v, hev⟩ := Option.isSome_iff_exists.mp hsome
      have hte : truthy e = true := by
        rw [hev, truthy]
        exact bne_iff_ne.mpr (fun h0 => hv1 (by rw [hev, h0]))
      rw [hte]
      rfl
    · obtain ⟨v, hpv⟩ := Option.isSome_iff_exists.mp hsome
      have htp : truthy p = true := by
        rw [hpv, truthy]
        exact bne_iff_ne.mpr (fun h0 => hv2 (by rw [hpv, h0]))
      rw [htp, Bool.or_true]
  have hnoshare : ∀ a ∈ s.rows, isLive a = true →
      sharesB a (insertRow s e p none .primary).1 = false := by
    intro a ha halive
    have hmc : matchCondition e p a = false := by
      cases hm : matchCondition e p a with
      | false => rfl
      | true => exact absurd (by rw [halive, hm]; rfl) (hnomatch a ha)
    rw [matchCondition, if_pos htr] at hmc
    cases hsh : sharesB a (insertRow s e p none .primary).1 with
    | false => rfl
    | true =>
      have hmi : matchesInput e p a = true := by
        rw [sharesB, Bool.or_eq_true, Bool.and_eq_true, Bool.and_eq_true] at hsh
        rw [matchesInput, Bool.or_eq_true]
        rcases hsh with ⟨hs1, hs2⟩ | ⟨hs1, hs2⟩
        · have hae : a.email = e := (eq_of_beq hs2).trans rfl
          obtain ⟨v, hav⟩ := Option.isSome_iff_exists.mp hs1
          have hev : e = some v := hae ▸ hav
          refine Or.inl ?_
          rw [Bool.and_eq_true]
          constructor
          · rw [hev, truthy]
            exact bne_iff_ne.mpr (fun h0 => hv1 (by rw [hev, h0]))
          · rw [hae]
            exact beq_self_eq_true e
        · have hap : a.phoneNumber = p := (eq_of_beq hs2).trans rfl
          obtain ⟨v, hav⟩ := Option.isSome_iff_exists.mp hs1
          have hpv : p = some v := hap ▸ hav
          refine Or.inr ?_
          rw [Bool.and_eq_true]
          constructor
          · rw [hpv, truthy]
            exact bne_iff_ne.mpr (fun h0 => hv2 (by rw [hpv, h0]))
          · rw [hap]
            exact beq_self_eq_true p
      rw [hmc] at hmi
      exact absurd hmi (by decide)
  have hnmem : (insertRow s e p none .primary).1 ∉ s.rows := by
    intro hmem
    have hlt := hwf.idLt _ hmem
    exact absurd (show s.nextId < s.nextId from hlt) (lt_irrefl _)
  intro p' q' hp' hq' lp' lq' pp' pq' hrel
  have hprows : (insertRow s e p none .primary).2.rows =
      s.rows ++ [(insertRow s e p none .primary).1] := rfl
  rw [hprows] at hp' hq' hrel
  have hiso : ∀ b ∈ s.rows ++ [(insertRow s e p none .primary).1],
      isLive b = true → sharesB (insertRow s e p none .primary).1 b = true →
      b = (insertRow s e p none .primary).1 := by
    intro b hb hblive hsh
    rcases List.mem_append.mp hb with hbold | hbnew
    · have hsb := sharesB_symm hsh
      rw [hnoshare b hbold hblive] at hsb
      exact absurd hsb (by decide)
    · exact List.mem_singleton.mp hbnew
  rcases List.mem_append.mp hp' with hpo | hpn
  · rcases List.mem_append.mp hq' with hqo | hqn
    · have hpair : ∀ a ∈ s.rows, isLive a = true →
          sharesB a (insertRow s e p none .primary).1 = true → ∀ b ∈ s.rows,
          isLive b = true →
          sharesB b (insertRow s e p none .primary).1 = true →
          sharesB a b = true := by
        intro a ha hal hsa
        rw [hnoshare a ha hal] at hsa
        exact absurd hsa (by decide)
      exact hwf.amop p' q' hpo hqo lp' lq' pp' pq'
        (related_append hnmem hpair hpo hqo hrel)
    · have hq'' : q' = (insertRow s e p none .primary).1 :=
        List.mem_singleton.mp hqn
      have hrel' := related_symm hrel
      rw [hq''] at hrel'
      have hp'' := related_isolated hiso hrel'
      rw [hp''] at hpo
      exact absurd hpo hnmem
  · have hp'' : p' = (insertRow s e p none .primary).1 :=
      List.mem_singleton.mp hpn
    rcases List.mem_append.mp hq' with hqo | hqn
    · rw [hp''] at hrel
      have hq'' := related_isolated hiso hrel
      rw [hq''] at hqo
      exact absurd hqo hnmem
    · rw [hp'', List.mem_singleton.mp hqn]

/-- The merge loop preserves the whole well-formedness bundle. -/
theorem wf_merged {s : Store} {e p : Option String} {roots : List Nat}
    {root : Contact} {rest : List Contact} (hwf : WF s)
    (hroots : collectRootIds (findMatching s e p) = .ok roots)
    (hfp : findPrimaries s roots = root :: rest) :
    WF (mergedStore s root rest) := by
  obtain ⟨hrmem, hrlive, hrprim, hrnone, hyfacts, hrootid, hidrest⟩ :=
    fp_facts hwf hroots hfp
  have hclassify := merged_classify hwf hroots hfp
  have hback := merged_primary_back hwf hroots hfp
  refine ⟨?_, ?_, ?_, ?_, ?_, ?_, amop_merged hwf hroots hfp⟩
  · rw [mergedStore_ids]
    exact hwf.nodup
  · intro c hc
    rw [mergedStore_rows] at hc
    obtain ⟨x, hx, hxc⟩ := List.mem_map.mp hc
    rw [← hxc]
    rw [(demoteAllStep_fields root.id (rest.map (·.id)) x).1]
    exact hwf.idLt x hx
  · intro c hc
    rw [mergedStore_rows] at hc
    obtain ⟨x, hx, hxc⟩ := List.mem_map.mp hc
    rw [← hxc]
    rw [(demoteAllStep_fields root.id (rest.map (·.id)) x).2.2.2.1]
    exact hwf.createdLe x hx
  · intro c hc
    rw [mergedStore_rows] at hc
    obtain ⟨x, hx, hxc⟩ := List.mem_map.mp hc
    have hfl := demoteAllStep_fields root.id (rest.map (·.id)) x
    obtain ⟨h1, h2, h3⟩ := hwf.valid x hx
    refine ⟨?_, ?_, ?_⟩
    · rw [← hxc, hfl.2.1]
      exact h1
    · rw [← hxc, hfl.2.2.1]
      exact h2
    · rw [← hxc, hfl.2.1, hfl.2.2.1]
      exact h3
  · intro c hc hclive hcprim
    rw [mergedStore_rows] at hc
    obtain ⟨x, hx, hxc⟩ := List.mem_map.mp hc
    have hxlive : isLive x = true := by
      rw [← demoteAllStep_isLive root.id (rest.map (·.id)) x, hxc]
      exact hclive
    obtain ⟨heq, hxprim⟩ := hback x hx hxlive (by rw [hxc]; exact hcprim)
    rw [← hxc, heq]
    exact hwf.primNone x hx hxlive hxprim
  · intro c hc hclive hcsec
    rw [mergedStore_rows] at hc
    obtain ⟨x, hx, hxc⟩ := List.mem_map.mp hc
    have hxlive : isLive x = true := by
      rw [← demoteAllStep_isLive root.id (rest.map (·.id)) x, hxc]
      exact hclive
    have hrootM := root_mem_merged hwf hroots hfp
    rcases hclassify x hx with ⟨hxr, heq⟩ | ⟨hrel, heq⟩ | ⟨hnr, hnl, heq⟩
    · refine ⟨root, hrootM, ?_, hrlive, hrprim⟩
      rw [← hxc, heq]
    · refine ⟨root, hrootM, ?_, hrlive, hrprim⟩
      rw [← hxc, heq]
    · have hcx : c = x := hxc.symm.trans heq
      have hxsec : x.linkPrecedence = .secondary := by
        rw [← hcx]
        exact hcsec
      obtain ⟨r, hr, hlid, hrlive2, hrprim2⟩ := hwf.secLink x hx hxlive hxsec
      have hrnr : r ∉ rest := fun hrr => hnl r hrr ⟨hlid, hxlive⟩
      have hrlid : r.linkedId = none := hwf.primNone r hr hrlive2 hrprim2
      rcases hclassify r hr with ⟨hrr, -⟩ | ⟨⟨y, hy, hylid, -⟩, -⟩ | ⟨-, -, hreq⟩
      · exact absurd hrr hrnr
      · rw [hrlid] at hylid
        exact absurd hylid (by simp)
      · refine ⟨r, ?_, ?_, hrlive2, hrprim2⟩
        · rw [mergedStore_rows, ← hreq]
          exact List.mem_map_of_mem _ hr
        · rw [hcx]
          exact hlid

/-- Appending one freshly numbered row with valid fields and a proper
link target preserves all structural invariants but single-primary,
which is supplied separately per branch. -/
theorem wf_insert {s0 : Store} {e p : Option String} {lid : Option Nat}
    {prec : Precedence} (hwf0 : WF s0) (hv : ValidInput e p)
    (hlink : prec = .secondary →
      ∃ r ∈ s0.rows, lid = some r.id ∧ isLive r = true ∧
        r.linkPrecedence = .primary)
    (hprim : lid = none ∨ prec = .secondary)
    (hamop : AtMostOnePrimary (insertRow s0 e p lid prec).2.rows) :
    WF (insertRow s0 e p lid prec).2 := by
  obtain ⟨hv1, hv2, hv3⟩ := hv
  have hprows : (insertRow s0 e p lid prec).2.rows =
      s0.rows ++ [(insertRow s0 e p lid prec).1] := rfl
  refine ⟨?_, ?_, ?_, ?_, ?_, ?_, hamop⟩
  · have hids : (insertRow s0 e p lid prec).2.rows.map (·.id) =
        s0.rows.map (·.id) ++ [s0.nextId] := by
      rw [hprows, List.map_append]
      rfl
    rw [hids]
    refine List.Nodup.append hwf0.nodup (List.nodup_singleton _) ?_
    intro a ha hb
    rw [List.mem_singleton] at hb
    obtain ⟨x, hx, hxa⟩ := List.mem_map.mp ha
    rw [hb] at hxa
    exact absurd hxa (Nat.ne_of_lt (hwf0.idLt x hx))
  · intro c hc
    rw [hprows] at hc
    rcases List.mem_append.mp hc with h | h
    · exact Nat.lt_trans (hwf0.idLt c h) (Nat.lt_succ_self _)
    · rw [List.mem_singleton.mp h]
      exact Nat.lt_succ_self _
  · intro c hc
    rw [hprows] at hc
    rcases List.mem_append.mp hc with h | h
    · exact hwf0.createdLe c h
    · rw [List.mem_singleton.mp h]
      exact Nat.le_refl _
  · intro c hc
    rw [hprows] at hc
    rcases List.mem_append.mp hc with h | h
    · exact hwf0.valid c h
    · rw [List.mem_singleton.mp h]
      exact ⟨hv1, hv2, hv3⟩
  · intro c hc hclive hcprim
    rw [hprows] at hc
    rcases List.mem_append.mp hc with h | h
    · exact hwf0.primNone c h hclive hcprim
    · rw [List.mem_singleton.mp h] at hcprim ⊢
      rcases hprim with hnone | hsec
      · rw [show (insertRow s0 e p lid prec).1.linkedId = lid from rfl, hnone]
      · rw [show (insertRow s0 e p lid prec).1.linkPrecedence = prec from rfl,
          hsec] at hcprim
        exact absurd hcprim (by decide)
  · intro c hc hclive hcsec
    rw [hprows] at hc
    rcases List.mem_append.mp hc with h | h
    · obtain ⟨r, hr, h1, h2, h3⟩ := hwf0.secLink c h hclive hcsec
      refine ⟨r, ?_, h1, h2, h3⟩
      rw [hprows]
      exact List.mem_append_left _ hr
    · rw [List.mem_singleton.mp h] at hcsec ⊢
      have hsec : prec = .secondary := hcsec
      obtain ⟨r, hr, h1, h2, h3⟩ := hlink hsec
      refine ⟨r, ?_, ?_, h2, h3⟩
      · rw [hprows]
        exact List.mem_append_left _ hr
      · rw [show (insertRow s0 e p lid prec).1.linkedId = lid from rfl, h1]

/-- Every committed `reconcile` transaction preserves well-formedness. -/
theorem wf_preserved {s : Store} {e p : Option String} {r : IdentifyContact}
    {s' : Store} (hwf : WF s) (hv : ValidInput e p)
    (h : reconcile s e p = .ok (r, s')) : WF s' := by
  rcases reconcile_ok_cases h with ⟨hemp, hs', -⟩ |
    ⟨roots, root, rest, hemp, hroots, hfp, ⟨hac, hs', -⟩ | ⟨hac, hs', -⟩⟩
  · rw [hs']
    exact wf_insert hwf hv (fun hx => absurd hx (by decide)) (Or.inl rfl)
      (amop_empty hwf hv hemp)
  · rw [hs']
    have hM := wf_merged hwf hroots hfp
    obtain ⟨hrmem, hrlive, hrprim, -⟩ := fp_facts hwf hroots hfp
    exact wf_insert hM hv (fun _ => ⟨root, root_mem_merged hwf hroots hfp, rfl,
      hrlive, hrprim⟩) (Or.inr rfl) (amop_attach hwf hv hroots hfp hac)
  · rw [hs']
    exact wf_merged hwf hroots hfp

/-- An empty store is well-formed. -/
theorem wf_empty : WF emptyStore :=
  ⟨List.nodup_nil,
   fun c hc => absurd hc (List.not_mem_nil c),
   fun c hc => absurd hc (List.not_mem_nil c),
   fun c hc => absurd hc (List.not_mem_nil c),
   fun c hc _ _ => absurd hc (List.not_mem_nil c),
   fun c hc _ _ => absurd hc (List.not_mem_nil c),
   fun p _ hp _ _ _ _ _ _ => absurd hp (List.not_mem_nil p)⟩

/-- Well-formedness is preserved along any successful sequence of
validated calls. -/
theorem wf_seq {qs : List (Option String × Option String)} :
    ∀ {s s' : Store}, WF s → (∀ q ∈ qs, ValidInput q.1 q.2) →
      reconcileSeq s qs = .ok s' → WF s' := by
  induction qs with
  | nil =>
    intro s s' hwf hv h
    rw [reconcileSeq] at h
    exact (Except.ok.inj h) ▸ hwf
  | cons q qs ih =>
    intro s s' hwf hv h
    cases hr : reconcile s q.1 q.2 with
    | error u =>
      simp only [reconcileSeq, hr] at h
      exact absurd h (by simp)
    | ok x =>
      obtain ⟨r1, s1⟩ := x
      simp only [reconcileSeq, hr] at h
      exact ih (wf_preserved hwf (hv q (List.mem_cons_self q qs)) hr)
        (fun q' hq' => hv q' (List.mem_cons_of_mem _ hq')) h

/-- Depth-one is a consequence of the well-formedness bundle: a live
row's link target is always a live primary, and ids are unique. -/
theorem depthOne_of_wf {s : Store} (hwf : WF s) : DepthOne s.rows := by
  intro c hc hclive hcsec d hd hdlive heq
  cases hdp : d.linkPrecedence with
  | primary =>
    have hnone := hwf.primNone d hd hdlive hdp
    rw [hnone] at heq
    exact absurd heq (by simp)
  | secondary =>
    obtain ⟨r, hr, hlid, hrlive, hrprim⟩ := hwf.secLink d hd hdlive hdp
    rw [hlid] at heq
    have hid : r.id = c.id := Option.some.inj heq
    have hrc : r = c := wf_id_inj hwf hr hc hid
    rw [hrc] at hrprim
    rw [hcsec] at hrprim
    exact absurd hrprim (by decide)

theorem c1x_mem : ∀ x ∈ c1xStore.rows,
    x = c1xRow1 ∨ x = c1xRow2 ∨ x = c1xRow3 := by
  intro x hx
  simp only [c1xStore, List.mem_cons, List.not_mem_nil, or_false] at hx
  exact hx

theorem c1x_wf : WF c1xStore := by
  refine ⟨by decide, by decide, by decide, by decide, by decide, by decide, ?_⟩
  intro p q hp hq lp lq pp pq hrel
  rcases c1x_mem p hp with h | h | h
  · have hiso : ∀ b ∈ c1xStore.rows, isLive b = true →
        sharesB c1xRow1 b = true → b = c1xRow1 := by
      intro b hb hbl hbs
      rcases c1x_mem b hb with hb' | hb' | hb'
      · exact hb'
      · rw [hb'] at hbs
        exact absurd hbs (by decide)
      · rw [hb'] at hbs
        exact absurd hbs (by decide)
    rw [h] at hrel
    rw [h, (related_isolated hiso hrel).symm]
  · rw [h] at pp
    exact absurd pp (by decide)
  · rw [h] at hrel
    have hq32 : q = c1xRow3 ∨ q = c1xRow2 := by
      refine related_invariant (P := fun z => z = c1xRow3 ∨ z = c1xRow2)
        ?_ hrel (Or.inl rfl)
      intro a b hPa hstep
      obtain ⟨-, hbmem, -, -, hs⟩ := hstep
      rcases c1x_mem b hbmem with hb' | hb' | hb'
      · rcases hPa with ha' | ha' <;> rw [ha', hb'] at hs <;>
          exact absurd hs (by decide)
      · exact Or.inr hb'
      · exact Or.inl hb'
    rcases hq32 with hq' | hq'
    · rw [h, hq']
    · rw [hq'] at pq
      exact absurd pq (by decide)

/-- **C1, counterexample.**  From the well-formed store `c1xStore`, the
validated call `reconcile (some "a") (some "3")` succeeds and demotes
`c1xRow3` under `c1xRow1`; afterwards the live row `c1xRow2` has no live
primary in its shares-email-or-phone class: the class of `c1xRow2` and
`c1xRow3d` contains zero primaries, refuting "exactly one primary per
class". -/
theorem c1_counterexample :
    WF c1xStore ∧ ValidInput (some "a") (some "3") ∧
    reconcile c1xStore (some "a") (some "3") = .ok (c1xResp, c1xStoreA) ∧
    c1xRow2 ∈ c1xStoreA.rows ∧ isLive c1xRow2 = true ∧
    ¬∃ q ∈ c1xStoreA.rows, isLive q = true ∧
      q.linkPrecedence = Precedence.primary ∧ Related c1xStoreA.rows c1xRow2 q := by
  refine ⟨c1x_wf, by decide, rfl, by decide, by decide, ?_⟩
  rintro ⟨q, hq, hql, hqp, hrel⟩
  have hmem : ∀ x ∈ c1xStoreA.rows,
      x = c1xRow1 ∨ x = c1xRow2 ∨ x = c1xRow3d := by
    intro x hx
    simp only [c1xStoreA, List.mem_cons, List.not_mem_nil, or_false] at hx
    exact hx
  have hq23 : q = c1xRow2 ∨ q = c1xRow3d := by
    refine related_invariant (P := fun z => z = c1xRow2 ∨ z = c1xRow3d)
      ?_ hrel (Or.inl rfl)
    intro a b hPa hstep
    obtain ⟨-, hbmem, -, -, hs⟩ := hstep
    rcases hmem b hbmem with hb' | hb' | hb'
    · rcases hPa with ha' | ha' <;> rw [ha', hb'] at hs <;>
        exact absurd hs (by decide)
    · exact Or.inl hb'
    · exact Or.inr hb'
  rcases hq23 with hq' | hq' <;> rw [hq'] at hqp <;> exact absurd hqp (by decide)

/-- **C1** (amended: at most one, not exactly one).  After every
successful sequence of validated `reconcile` calls from a well-formed
store, each transitive-closure class of the shares-email-or-phone
relation on live rows contains at most one live primary; the claim's
"exactly one" is refuted by `c1_counterexample`, where a class ends with
zero primaries. -/
theorem c1_theorem {s : Store} {qs : List (Option String × Option String)}
    {s' : Store} (hwf : WF s) (hv : ∀ q ∈ qs, ValidInput q.1 q.2)
    (h : reconcileSeq s qs = .ok s') : AtMostOnePrimary s'.rows :=
  (wf_seq hwf hv h).amop

/-- Witness: `c1_theorem` applied to one concrete call from the empty
store. -/
theorem c1_witness : AtMostOnePrimary c1wStore.rows :=
  @c1_theorem emptyStore [(some "a", some "1")] c1wStore wf_empty (by decide) rfl

/-- **C5.**  After every successful sequence of validated `reconcile`
calls from a well-formed store, no live row is a secondary while also
being referenced by another live row's `linkedId`: the link forest has
depth one. -/
theorem c5_theorem {s : Store} {qs : List (Option String × Option String)}
    {s' : Store} (hwf : WF s) (hv : ∀ q ∈ qs, ValidInput q.1 q.2)
    (h : reconcileSeq s qs = .ok s') : DepthOne s'.rows :=
  depthOne_of_wf (wf_seq hwf hv h)

/-- Witness: `c5_theorem` applied to two concrete calls from the empty
store, the second attaching a secondary under the first's primary. -/
theorem c5_witness : DepthOne c5wStore.rows :=
  @c5_theorem emptyStore [(some "x", some "1"), (some "y", some "1")] c5wStore
    wf_empty (by decide) rfl

end Bitespeed
